import Mathlib

/-!
Shallow embedding of `phixelgator.py` (a Python 2 script: `map` returns lists,
`/` is true division via `from __future__ import division`, `int()` truncates
toward zero, `round()` rounds half away from zero).  Numeric channel values are
modelled as exact rationals.
-/

namespace Phix

/-- Color modes selected by the `-m` CLI flag: one of `rgb`, `hsv`, `hls`. -/
inductive Mode
  | rgb
  | hsv
  | hls
deriving DecidableEq

/-- Python `int()` applied to a rational: truncation toward zero. -/
def pyInt (q : ℚ) : ℤ := if 0 ≤ q then ⌊q⌋ else ⌈q⌉

/-- Python 2 `round()` applied to a rational: round half away from zero. -/
def pyRound (q : ℚ) : ℚ := if 0 ≤ q then ((⌊q + 1/2⌋ : ℤ) : ℚ) else ((⌈q - 1/2⌉ : ℤ) : ℚ)

/-- Python `x % 1.0` on a nonnegative-modulus float: the fractional part, in `[0, 1)`. -/
def pyMod1 (q : ℚ) : ℚ := Int.fract q

/-- Python `max(r, g, b)` as used in `colorsys`. -/
def maxc (r g b : ℚ) : ℚ := max r (max g b)

/-- Python `min(r, g, b)` as used in `colorsys`. -/
def minc (r g b : ℚ) : ℚ := min r (min g b)

/-- The raw (pre-`% 1.0`) hue numerator `h` computed identically by
`colorsys.rgb_to_hsv` and `colorsys.rgb_to_hls`:
`bc-gc`, `2+rc-bc` or `4+gc-rc` depending on which channel is maximal,
where `rc = (maxc-r)/(maxc-minc)` etc. -/
def hueRaw (r g b : ℚ) : ℚ :=
  if r = maxc r g b then
    (maxc r g b - b) / (maxc r g b - minc r g b) - (maxc r g b - g) / (maxc r g b - minc r g b)
  else if g = maxc r g b then
    2 + (maxc r g b - r) / (maxc r g b - minc r g b) - (maxc r g b - b) / (maxc r g b - minc r g b)
  else
    4 + (maxc r g b - g) / (maxc r g b - minc r g b) - (maxc r g b - r) / (maxc r g b - minc r g b)

/-- Function `colorsys.rgb_to_hsv` over exact rationals. -/
def colorsys_rgb_to_hsv (r g b : ℚ) : ℚ × ℚ × ℚ :=
  if minc r g b = maxc r g b then (0, 0, maxc r g b)
  else (pyMod1 (hueRaw r g b / 6), (maxc r g b - minc r g b) / maxc r g b, maxc r g b)

/-- The six-way sector table of `colorsys.hsv_to_rgb` (`i = i % 6` has already
been applied; `p = v*(1-s)`, `q = v*(1-s*f)`, `t = v*(1-s*(1-f))` inlined). -/
def hsvSector (i : ℤ) (f s v : ℚ) : ℚ × ℚ × ℚ :=
  if i = 0 then (v, v * (1 - s * (1 - f)), v * (1 - s))
  else if i = 1 then (v * (1 - s * f), v, v * (1 - s))
  else if i = 2 then (v * (1 - s), v, v * (1 - s * (1 - f)))
  else if i = 3 then (v * (1 - s), v * (1 - s * f), v)
  else if i = 4 then (v * (1 - s * (1 - f)), v * (1 - s), v)
  else (v, v * (1 - s), v * (1 - s * f))

/-- Function `colorsys.hsv_to_rgb` over exact rationals: `i = int(h*6)`, `f = h*6 - i`. -/
def colorsys_hsv_to_rgb (h s v : ℚ) : ℚ × ℚ × ℚ :=
  if s = 0 then (v, v, v)
  else hsvSector (pyInt (h * 6) % 6) (h * 6 - ((pyInt (h * 6) : ℤ) : ℚ)) s v

/-- The lightness `l = (minc+maxc)/2` of `colorsys.rgb_to_hls`. -/
def hlsL (r g b : ℚ) : ℚ := (minc r g b + maxc r g b) / 2

/-- Function `colorsys.rgb_to_hls` over exact rationals (returns `(h, l, s)`). -/
def colorsys_rgb_to_hls (r g b : ℚ) : ℚ × ℚ × ℚ :=
  if minc r g b = maxc r g b then (0, hlsL r g b, 0)
  else (pyMod1 (hueRaw r g b / 6), hlsL r g b,
    if hlsL r g b ≤ 1/2 then (maxc r g b - minc r g b) / (maxc r g b + minc r g b)
    else (maxc r g b - minc r g b) / (2 - maxc r g b - minc r g b))

/-- Quantity `m2` of `colorsys.hls_to_rgb`. -/
def hlsM2 (l s : ℚ) : ℚ := if l ≤ 1/2 then l * (1 + s) else l + s - l * s

/-- The body of `colorsys._v` after its `hue = hue % 1.0` reduction. -/
def vRaw (m1 m2 hue : ℚ) : ℚ :=
  if hue < 1/6 then m1 + (m2 - m1) * hue * 6
  else if hue < 1/2 then m2
  else if hue < 2/3 then m1 + (m2 - m1) * (2/3 - hue) * 6
  else m1

/-- Function `colorsys._v`. -/
def colorsys_v (m1 m2 hue : ℚ) : ℚ := vRaw m1 m2 (pyMod1 hue)

/-- Function `colorsys.hls_to_rgb` over exact rationals (`m1 = 2*l - m2` inlined). -/
def colorsys_hls_to_rgb (h l s : ℚ) : ℚ × ℚ × ℚ :=
  if s = 0 then (l, l, l)
  else (colorsys_v (2 * l - hlsM2 l s) (hlsM2 l s) (h + 1/3),
    colorsys_v (2 * l - hlsM2 l s) (hlsM2 l s) h,
    colorsys_v (2 * l - hlsM2 l s) (hlsM2 l s) (h - 1/3))

/-- Python `f(*(xs[:3]))` for a three-argument `f`: unpack the first three
entries of a color list. -/
def apply3 {α : Type} (f : ℚ → ℚ → ℚ → α) (xs : List ℚ) : α :=
  f (xs.getD 0 0) (xs.getD 1 0) (xs.getD 2 0)

/-- Function `hls_to_rgb` of phixelgator: `map(lambda x: int(x * 255.0), colorsys.hls_to_rgb(h, l, s))`. -/
def hls_to_rgb (h l s : ℚ) : List ℚ :=
  [((pyInt ((colorsys_hls_to_rgb h l s).1 * 255) : ℤ) : ℚ),
   ((pyInt ((colorsys_hls_to_rgb h l s).2.1 * 255) : ℤ) : ℚ),
   ((pyInt ((colorsys_hls_to_rgb h l s).2.2 * 255) : ℤ) : ℚ)]

/-- Function `hsv_to_rgb` of phixelgator: `map(lambda x: int(x * 255.0), colorsys.hsv_to_rgb(h, s, v))`. -/
def hsv_to_rgb (h s v : ℚ) : List ℚ :=
  [((pyInt ((colorsys_hsv_to_rgb h s v).1 * 255) : ℤ) : ℚ),
   ((pyInt ((colorsys_hsv_to_rgb h s v).2.1 * 255) : ℤ) : ℚ),
   ((pyInt ((colorsys_hsv_to_rgb h s v).2.2 * 255) : ℤ) : ℚ)]

/-- Function `rgb_to_hsv` of phixelgator: `colorsys.rgb_to_hsv(r / 255, g / 255, b / 255)`. -/
def rgb_to_hsv (r g b : ℚ) : List ℚ :=
  [(colorsys_rgb_to_hsv (r / 255) (g / 255) (b / 255)).1,
   (colorsys_rgb_to_hsv (r / 255) (g / 255) (b / 255)).2.1,
   (colorsys_rgb_to_hsv (r / 255) (g / 255) (b / 255)).2.2]

/-- Function `rgb_to_hls` of phixelgator: `colorsys.rgb_to_hls(r / 255, g / 255, b / 255)`. -/
def rgb_to_hls (r g b : ℚ) : List ℚ :=
  [(colorsys_rgb_to_hls (r / 255) (g / 255) (b / 255)).1,
   (colorsys_rgb_to_hls (r / 255) (g / 255) (b / 255)).2.1,
   (colorsys_rgb_to_hls (r / 255) (g / 255) (b / 255)).2.2]

/-- Function `get_hex`: join the unpadded lowercase hex digits of the (integer) RGB
channels; in `hsv`/`hls` mode the color is first converted back to RGB.
Python's `hex(n).split('x', 1)[1]` drops the `0x` marker together with any
sign, hence the `natAbs`. -/
def get_hex (color : List ℚ) (mode : Mode) : List Char :=
  ((match mode with
    | Mode.hsv => apply3 hsv_to_rgb color
    | Mode.hls => apply3 hls_to_rgb color
    | Mode.rgb => color.take 3).map (fun t => Nat.toDigits 16 (pyInt t).natAbs)).flatten

/-- Function `color_diff`: sum of squared differences over the first three channels. -/
def color_diff (c1 c2 : List ℚ) : ℚ :=
  (((c1.take 3).zip (c2.take 3)).map (fun x => (x.1 - x.2) ^ 2)).sum

/-- Function `color_diff_wheighted`: `diff_pix[0]*10 + diff_pix[1]*10 + diff_pix[2]*10`
where `diff_pix` is the list of absolute per-channel differences. -/
def color_diff_wheighted (c1 c2 : List ℚ) : ℚ :=
  ((((c1.take 3).zip (c2.take 3)).map (fun x => |x.1 - x.2|)).getD 0 0) * 10 +
  ((((c1.take 3).zip (c2.take 3)).map (fun x => |x.1 - x.2|)).getD 1 0) * 10 +
  ((((c1.take 3).zip (c2.take 3)).map (fun x => |x.1 - x.2|)).getD 2 0) * 10

/-- Python `zip(*rows)`: transpose truncated to the shortest row. -/
def pyZipStar (rows : List (List ℚ)) : List (List ℚ) :=
  match rows with
  | [] => []
  | r :: rs =>
    (List.range ((rs.map List.length).foldl min r.length)).map
      (fun i => (r :: rs).map (fun row => row.getD i 0))

/-- Function `average_pixel`: in `rgb` mode the per-channel mean over `len(data)` pixels,
rounded; otherwise (`hsv`/`hls`) each channel sum is divided by
`map_size = len(list(zip(*data))[:3])`, i.e. by the number of channels. -/
def average_pixel (data : List (List ℚ)) (mode : Mode) : List ℚ :=
  if mode = Mode.rgb then
    ((pyZipStar data).take 3).map
      (fun x => ((pyInt (pyRound (x.sum / (data.length : ℚ))) : ℤ) : ℚ))
  else
    ((pyZipStar data).take 3).map
      (fun x => x.sum / ((((pyZipStar data).take 3).length : ℕ) : ℚ))

/-- The accumulator loop of Python's builtin `min(..., key=f)`: keep the
current best, replacing it only on a strictly smaller key (stable min). -/
def minFold {α : Type} (f : α → ℚ) (acc : α) : List α → α
  | [] => acc
  | y :: ys => minFold f (if f y < f acc then y else acc) ys

/-- Python `min(l, key=f)`; `none` on an empty list (Python raises ValueError). -/
def pyMinKey {α : Type} (f : α → ℚ) : List α → Option α
  | [] => none
  | x :: xs => some (minFold f x xs)

/-- The memo dictionary `hexdict`, keyed by `get_hex` strings. -/
abbrev Memo := List (List Char × List ℚ)

/-- Python `hexdict[k]` / `k in hexdict`. -/
def memoLookup (k : List Char) : Memo → Option (List ℚ)
  | [] => none
  | (k', v) :: rest => if k = k' then some v else memoLookup k rest

/-- Function `get_closest_color`: on a memo miss, scan the palette with `min` keyed by
`color_diff` (rgb mode) or `color_diff_wheighted` (otherwise) and cache the
winner under the color's hex key.  `none` models the ValueError Python raises
when `min` is given an empty palette. -/
def get_closest_color (color : List ℚ) (palette : List (List ℚ)) (hexdict : Memo)
    (mode : Mode) : Option (List ℚ × Memo) :=
  match memoLookup (get_hex color mode) hexdict with
  | some v => some (v, hexdict)
  | none =>
    match pyMinKey
        (fun c => if mode ≠ Mode.rgb then color_diff_wheighted color c else color_diff color c)
        palette with
    | none => none
    | some best => some (best, (get_hex color mode, best) :: hexdict)

/-- The in-place pixel buffer `rgb = img.load()`: a pixel (a channel list) at
each coordinate pair. -/
abbrev Buffer := ℕ → ℕ → List ℚ

/-- Value `int(math.ceil(width / blockSize))` for positive `blockSize`. -/
def blockWidth (W B : ℕ) : ℕ := (W + B - 1) / B

/-- Value `int(math.ceil(height / blockSize))` for positive `blockSize`. -/
def blockHeight (H B : ℕ) : ℕ := (H + B - 1) / B

/-- The block coordinates traversed by `phixelate`, in loop order
(`x` outer, `y` inner). -/
def blockList (W H B : ℕ) : List (ℕ × ℕ) :=
  (List.range (blockWidth W B)).flatMap
    (fun x => (List.range (blockHeight H B)).map (fun y => (x, y)))

/-- One block body of `phixelate`: gather the container (the loops over
`xi`/`yi` `break` once `xi + xOffset ≥ width` resp. `yi + yOffset ≥ height`,
so they run over `[0, min blockSize (width - xOffset))` etc.), average the
alpha channel, convert to the alternate space if requested, average, snap to
the palette when one is present (`if palette:` is false for an empty list),
convert back, and round.  Returns the final RGBA tuple and the updated memo. -/
def blockColor (W H B : ℕ) (mode : Mode) (palette : List (List ℚ))
    (st : Buffer × Memo) (x y : ℕ) : List ℚ × Memo :=
  let xOffset := x * B
  let yOffset := y * B
  let container :=
    ((List.range (min B (W - xOffset))).map
      (fun xi => (List.range (min B (H - yOffset))).map
        (fun yi => st.1 (xi + xOffset) (yi + yOffset)))).flatten
  let avg_alpha : ℚ :=
    ((pyInt (pyRound (((pyZipStar container).getD 3 []).sum / (container.length : ℚ))) : ℤ) : ℚ)
  let container2 := match mode with
    | Mode.hsv => container.map (fun co => apply3 rgb_to_hsv co)
    | Mode.hls => container.map (fun co => apply3 rgb_to_hls co)
    | Mode.rgb => container
  let color0 := average_pixel container2 mode
  let res := if palette ≠ [] then
      (get_closest_color color0 palette st.2 mode).getD (color0, st.2)
    else (color0, st.2)
  let color2 := match mode with
    | Mode.hsv => apply3 hsv_to_rgb res.1
    | Mode.hls => apply3 hls_to_rgb res.1
    | Mode.rgb => res.1
  ((color2 ++ [avg_alpha]).map (fun co => ((pyInt (pyRound co) : ℤ) : ℚ)), res.2)

/-- Membership of pixel `(a, b)` in block `(x, y)`: exactly the coordinates
the container/write loops of `phixelate` touch for that block (`xi` runs over
`[0, min blockSize (width - xOffset))`, likewise `yi`). -/
def inBlock (W H B x y a b : ℕ) : Prop :=
  x * B ≤ a ∧ a < x * B + min B (W - x * B) ∧
  y * B ≤ b ∧ b < y * B + min B (H - y * B)

instance (W H B x y a b : ℕ) : Decidable (inBlock W H B x y a b) := by
  unfold inBlock; infer_instance

/-- One iteration of `phixelate`'s outer loops: compute the block's color and
write it to every coordinate of the block (the write loops run over the same
truncated ranges as the container-gathering loops, i.e. over `inBlock`). -/
def processBlock (W H B : ℕ) (mode : Mode) (palette : List (List ℚ))
    (st : Buffer × Memo) (xy : ℕ × ℕ) : Buffer × Memo :=
  (fun a b =>
    if inBlock W H B xy.1 xy.2 a b then
      (blockColor W H B mode palette st xy.1 xy.2).1
    else st.1 a b,
   (blockColor W H B mode palette st xy.1 xy.2).2)

/-- Function `phixelate`: fold the per-block processing over all blocks, starting from
an empty `hexdict`, and return the mutated buffer. -/
def phixelate (W H : ℕ) (buf : Buffer) (palette : List (List ℚ)) (B : ℕ)
    (mode : Mode) : Buffer :=
  ((blockList W H B).foldl (processBlock W H B mode palette) (buf, ([] : Memo))).1

/-- Invariant of `phixelate`'s block loop: pixels of not-yet-processed blocks
still hold their original values, and pixels inside any processed block all
hold one and the same value. -/
def InvAfter (buf0 : Buffer) (W H B : ℕ) (done : List (ℕ × ℕ)) (cur : Buffer) : Prop :=
  (∀ a b, a < W → b < H → (a / B, b / B) ∉ done → cur a b = buf0 a b) ∧
  (∀ a b c d, a < W → b < H → c < W → d < H → a / B = c / B → b / B = d / B →
    (a / B, b / B) ∈ done → cur a b = cur c d)

/-- The four `-x` crop anchors. -/
inductive Orientation
  | tl
  | tr
  | bl
  | br

/-- Modelled from the spec: PIL's `Image.crop`, an external collaborator
(spec section 4.4 describes crop as extracting the selected corner region).
For an in-bounds box `(left, upper, right, lower)` it yields a buffer of size
`(right - left) × (lower - upper)` whose pixel `(x, y)` is the original's
`(x + left, y + upper)`. -/
def pilCrop (buf : Buffer) (box : ℕ × ℕ × ℕ × ℕ) : ℕ × ℕ × Buffer :=
  (box.2.2.1 - box.1, box.2.2.2 - box.2.1, fun x y => buf (x + box.1) (y + box.2.1))

/-- Function `phixel_crop`: crop the image to a multiple of the block size, anchored at
the chosen corner. -/
def phixel_crop (W H : ℕ) (buf : Buffer) (block_size : ℕ)
    (orientation : Orientation) : ℕ × ℕ × Buffer :=
  pilCrop buf
    (match orientation with
     | Orientation.tl => (0, 0, W / block_size * block_size, H / block_size * block_size)
     | Orientation.tr => (W - W / block_size * block_size, 0, W, H / block_size * block_size)
     | Orientation.bl => (0, H - H / block_size * block_size, W / block_size * block_size, H)
     | Orientation.br => (W - W / block_size * block_size, H - H / block_size * block_size, W, H))

/-- Result of the `__main__` palette-loading block: the palette actually used
(`[]` stands for Python's `False`, i.e. no palette) and whether the
`"No palette loaded"` warning was written to stderr. -/
structure PaletteOutcome where
  palette : List (List ℚ)
  warned : Bool
deriving DecidableEq

/-- The palette-loading logic of `__main__` (lines 210-227).  `custom` models
`args.custom` (`some (Except.error ())` = the custom file's contents are
malformed JSON, so `json.loads` raises); `builtin` models a named `-p` palette
(`some (Except.error ())` = missing file or malformed JSON, raised inside the
`try` block).  Only the named-palette path is wrapped in `try/except`: a raise
while parsing a custom palette propagates and aborts the script
(`Except.error`). -/
def loadPalette (mode : Mode) (custom : Option (Except Unit (List (List ℚ))))
    (builtin : Option (Except Unit (List (List ℚ)))) : Except Unit PaletteOutcome :=
  match custom with
  | some (Except.error _) => Except.error ()
  | some (Except.ok pal) =>
    Except.ok ⟨(match mode with
      | Mode.hsv => pal.map (apply3 rgb_to_hsv)
      | Mode.hls => pal.map (apply3 rgb_to_hls)
      | Mode.rgb => pal), false⟩
  | none =>
    match builtin with
    | some (Except.ok pal) => Except.ok ⟨pal, false⟩
    | some (Except.error _) => Except.ok ⟨[], true⟩
    | none => Except.ok ⟨[], false⟩

/-- The `transform` lambda of `generate_palette`: a function of TWO positional
parameters (`lambda _, rgb: ...`; Python 2 tuple-unpacking would require
parentheses around the parameter list). -/
def palette_transform (mode : Mode) : ℕ → ℚ × ℚ × ℚ → List ℚ :=
  match mode with
  | Mode.hsv => fun _ rgb => rgb_to_hsv rgb.1 rgb.2.1 rgb.2.2
  | Mode.hls => fun _ rgb => rgb_to_hls rgb.1 rgb.2.1 rgb.2.2
  | Mode.rgb => fun _ rgb => [rgb.1, rgb.2.1, rgb.2.2]

/-- Python's `map(f, xs)` when `f` takes two positional parameters and each
element of `xs` is a single `(count, color)` tuple: every call raises
`TypeError` (a Python 2 lambda does not unpack a tuple argument unless its
parameter list is parenthesized). -/
def pyCallArity2WithTuple (_f : ℕ → ℚ × ℚ × ℚ → List ℚ) (_arg : ℕ × (ℚ × ℚ × ℚ)) :
    Except Unit (List ℚ) := Except.error ()

/-- Function `generate_palette`: `json.dumps(map(transform, img.getcolors(w*h)))`.
`colors` models `img.getcolors(...)`, the list of `(count, color)` pairs of
the distinct colors of the image. -/
def generate_palette (colors : List (ℕ × (ℚ × ℚ × ℚ))) (mode : Mode) :
    Except Unit (List (List ℚ)) :=
  colors.mapM (pyCallArity2WithTuple (palette_transform mode))

/-- The `colorsys`-level HSV round trip `hsv_to_rgb(rgb_to_hsv(r, g, b))`. -/
def hsvRound (r g b : ℚ) : ℚ × ℚ × ℚ :=
  colorsys_hsv_to_rgb (colorsys_rgb_to_hsv r g b).1 (colorsys_rgb_to_hsv r g b).2.1
    (colorsys_rgb_to_hsv r g b).2.2

/-- The `colorsys`-level HLS round trip `hls_to_rgb(rgb_to_hls(r, g, b))`. -/
def hlsRound (r g b : ℚ) : ℚ × ℚ × ℚ :=
  colorsys_hls_to_rgb (colorsys_rgb_to_hls r g b).1 (colorsys_rgb_to_hls r g b).2.1
    (colorsys_rgb_to_hls r g b).2.2

/-- The accumulator loop of Python's `min(..., key=f)` either keeps the
accumulator (when nothing in the list is strictly smaller) or returns the
first strictly-smaller-than-everything-before-it element of the list. -/
theorem minFold_spec {α : Type} (f : α → ℚ) :
    ∀ (xs : List α) (acc : α),
      (minFold f acc xs = acc ∧ ∀ y ∈ xs, f acc ≤ f y) ∨
      (∃ i, ∃ hi : i < xs.length, xs.get ⟨i, hi⟩ = minFold f acc xs ∧
        f (minFold f acc xs) < f acc ∧
        (∀ y ∈ xs, f (minFold f acc xs) ≤ f y) ∧
        (∀ j, (hj : j < i) → f (minFold f acc xs) < f (xs.get ⟨j, Nat.lt_trans hj hi⟩))) := by
  intro xs
  induction xs with
  | nil => intro acc; left; exact ⟨rfl, by simp⟩
  | cons y ys ih =>
    intro acc
    by_cases hy : f y < f acc
    · have hfold : minFold f acc (y :: ys) = minFold f y ys := by
        simp [minFold, if_pos hy]
      rcases ih y with ⟨heq, hall⟩ | ⟨i, hi, hget, hlt, hall, hfirst⟩
      · right
        refine ⟨0, by simp, ?_, ?_, ?_, ?_⟩
        · simp [hfold, heq]
        · rw [hfold, heq]; exact hy
        · intro z hz
          rcases List.mem_cons.1 hz with rfl | hz
          · rw [hfold, heq]
          · rw [hfold, heq]; exact hall z hz
        · intro j hj; exact absurd hj (Nat.not_lt_zero j)
      · right
        refine ⟨i + 1, Nat.succ_lt_succ hi, ?_, ?_, ?_, ?_⟩
        · rw [hfold]; exact hget
        · rw [hfold]; exact lt_trans hlt hy
        · intro z hz
          rcases List.mem_cons.1 hz with rfl | hz
          · rw [hfold]; exact le_of_lt hlt
          · rw [hfold]; exact hall z hz
        · intro j hj
          cases j with
          | zero => rw [hfold]; exact hlt
          | succ j' => rw [hfold]; exact hfirst j' (Nat.lt_of_succ_lt_succ hj)
    · have hay : f acc ≤ f y := not_lt.1 hy
      have hfold : minFold f acc (y :: ys) = minFold f acc ys := by
        simp [minFold, if_neg hy]
      rcases ih acc with ⟨heq, hall⟩ | ⟨i, hi, hget, hlt, hall, hfirst⟩
      · left
        refine ⟨by rw [hfold, heq], ?_⟩
        intro z hz
        rcases List.mem_cons.1 hz with rfl | hz
        · exact hay
        · exact hall z hz
      · right
        refine ⟨i + 1, Nat.succ_lt_succ hi, ?_, ?_, ?_, ?_⟩
        · rw [hfold]; exact hget
        · rw [hfold]; exact hlt
        · intro z hz
          rcases List.mem_cons.1 hz with rfl | hz
          · rw [hfold]; exact le_of_lt (lt_of_lt_of_le hlt hay)
          · rw [hfold]; exact hall z hz
        · intro j hj
          cases j with
          | zero => rw [hfold]; exact lt_of_lt_of_le hlt hay
          | succ j' => rw [hfold]; exact hfirst j' (Nat.lt_of_succ_lt_succ hj)

/-- Python's `min(l, key=f)` returns the first element of `l` attaining the
minimal key. -/
theorem pyMinKey_first {α : Type} (f : α → ℚ) (l : List α) (a : α)
    (h : pyMinKey f l = some a) :
    ∃ i, ∃ hi : i < l.length, l.get ⟨i, hi⟩ = a ∧
      (∀ j, (hj : j < l.length) → f a ≤ f (l.get ⟨j, hj⟩)) ∧
      (∀ j, (hj : j < i) → f a < f (l.get ⟨j, Nat.lt_trans hj hi⟩)) := by
  match l with
  | [] => exact absurd h (by simp [pyMinKey])
  | x :: xs =>
    have ha : minFold f x xs = a := by
      have := h
      simp only [pyMinKey, Option.some.injEq] at this
      exact this
    rcases minFold_spec f xs x with ⟨heq, hall⟩ | ⟨i, hi, hget, hlt, hall, hfirst⟩
    · refine ⟨0, Nat.succ_pos _, ?_, ?_, ?_⟩
      · rw [← ha, heq]; rfl
      · intro j hj
        cases j with
        | zero => rw [← ha, heq]; exact le_rfl
        | succ j' =>
          rw [← ha, heq]
          exact hall _ (List.get_mem xs _ _)
      · intro j hj; exact absurd hj (Nat.not_lt_zero j)
    · refine ⟨i + 1, Nat.succ_lt_succ hi, ?_, ?_, ?_⟩
      · rw [← ha]; exact hget
      · intro j hj
        cases j with
        | zero => rw [← ha]; exact le_of_lt hlt
        | succ j' =>
          rw [← ha]
          exact hall _ (List.get_mem xs _ _)
      · intro j hj
        cases j with
        | zero => rw [← ha]; exact hlt
        | succ j' => rw [← ha]; exact hfirst j' (Nat.lt_of_succ_lt_succ hj)

/-- C1: on a memo miss, `get_closest_color` with a non-empty palette returns
(and caches under the color's hex key) the first palette entry minimizing the
mode's distance function — `color_diff` in rgb mode, `color_diff_wheighted`
otherwise — where `color_diff` is the sum of squared differences over the
first three channels and `color_diff_wheighted` is the sum of absolute
per-channel differences with the fixed equal weight 10; ties go to the
earliest palette entry. -/
theorem get_closest_color_returns_first_min (color : List ℚ) (palette : List (List ℚ))
    (hexdict : Memo) (mode : Mode) (hne : palette ≠ [])
    (hmiss : memoLookup (get_hex color mode) hexdict = none) :
    (∃ res, get_closest_color color palette hexdict mode =
        some (res, (get_hex color mode, res) :: hexdict) ∧
      ∃ i, ∃ hi : i < palette.length, palette.get ⟨i, hi⟩ = res ∧
        (∀ j, (hj : j < palette.length) →
          (if mode ≠ Mode.rgb then color_diff_wheighted color res else color_diff color res) ≤
            (if mode ≠ Mode.rgb then color_diff_wheighted color (palette.get ⟨j, hj⟩)
             else color_diff color (palette.get ⟨j, hj⟩))) ∧
        (∀ j, (hj : j < i) →
          (if mode ≠ Mode.rgb then color_diff_wheighted color res else color_diff color res) <
            (if mode ≠ Mode.rgb then color_diff_wheighted color (palette.get ⟨j, Nat.lt_trans hj hi⟩)
             else color_diff color (palette.get ⟨j, Nat.lt_trans hj hi⟩)))) ∧
    (∀ a1 a2 a3 b1 b2 b3 : ℚ, ∀ t1 t2 : List ℚ,
      color_diff (a1 :: a2 :: a3 :: t1) (b1 :: b2 :: b3 :: t2) =
        (a1 - b1) ^ 2 + (a2 - b2) ^ 2 + (a3 - b3) ^ 2) ∧
    (∀ a1 a2 a3 b1 b2 b3 : ℚ, ∀ t1 t2 : List ℚ,
      color_diff_wheighted (a1 :: a2 :: a3 :: t1) (b1 :: b2 :: b3 :: t2) =
        |a1 - b1| * 10 + |a2 - b2| * 10 + |a3 - b3| * 10) := by
  have hpy : ∃ m, pyMinKey
      (fun c => if mode ≠ Mode.rgb then color_diff_wheighted color c else color_diff color c)
      palette = some m := by
    cases palette with
    | nil => exact absurd rfl hne
    | cons x xs => exact ⟨_, rfl⟩
  obtain ⟨m, hm⟩ := hpy
  have hgcc : get_closest_color color palette hexdict mode =
      some (m, (get_hex color mode, m) :: hexdict) := by
    unfold get_closest_color
    rw [hmiss, hm]
  obtain ⟨i, hi, hget, hall, hfirst⟩ := pyMinKey_first _ palette m hm
  refine ⟨⟨m, hgcc, i, hi, hget, ?_, ?_⟩, ?_, ?_⟩
  · intro j hj; exact hall j hj
  · intro j hj; exact hfirst j hj
  · intro a1 a2 a3 b1 b2 b3 t1 t2
    show (a1 - b1) ^ 2 + ((a2 - b2) ^ 2 + ((a3 - b3) ^ 2 + 0)) = _
    ring
  · intro a1 a2 a3 b1 b2 b3 t1 t2
    rfl

/-- Witness for C1 at a concrete input: color (0,0,0), palette
[(1,1,1), (0,0,0)], empty memo, rgb mode. -/
theorem get_closest_color_returns_first_min_witness :
    ∃ res, get_closest_color [(0:ℚ), 0, 0] [[(1:ℚ), 1, 1], [(0:ℚ), 0, 0]] [] Mode.rgb =
        some (res, (get_hex [(0:ℚ), 0, 0] Mode.rgb, res) :: []) ∧
      ∃ i, ∃ hi : i < ([[(1:ℚ), 1, 1], [(0:ℚ), 0, 0]] : List (List ℚ)).length,
        ([[(1:ℚ), 1, 1], [(0:ℚ), 0, 0]] : List (List ℚ)).get ⟨i, hi⟩ = res ∧
        (∀ j, (hj : j < ([[(1:ℚ), 1, 1], [(0:ℚ), 0, 0]] : List (List ℚ)).length) →
          (if Mode.rgb ≠ Mode.rgb then color_diff_wheighted [(0:ℚ), 0, 0] res
           else color_diff [(0:ℚ), 0, 0] res) ≤
            (if Mode.rgb ≠ Mode.rgb then
              color_diff_wheighted [(0:ℚ), 0, 0]
                (([[(1:ℚ), 1, 1], [(0:ℚ), 0, 0]] : List (List ℚ)).get ⟨j, hj⟩)
             else color_diff [(0:ℚ), 0, 0]
                (([[(1:ℚ), 1, 1], [(0:ℚ), 0, 0]] : List (List ℚ)).get ⟨j, hj⟩))) ∧
        (∀ j, (hj : j < i) →
          (if Mode.rgb ≠ Mode.rgb then color_diff_wheighted [(0:ℚ), 0, 0] res
           else color_diff [(0:ℚ), 0, 0] res) <
            (if Mode.rgb ≠ Mode.rgb then
              color_diff_wheighted [(0:ℚ), 0, 0]
                (([[(1:ℚ), 1, 1], [(0:ℚ), 0, 0]] : List (List ℚ)).get ⟨j, Nat.lt_trans hj hi⟩)
             else color_diff [(0:ℚ), 0, 0]
                (([[(1:ℚ), 1, 1], [(0:ℚ), 0, 0]] : List (List ℚ)).get ⟨j, Nat.lt_trans hj hi⟩))) :=
  (get_closest_color_returns_first_min [(0:ℚ), 0, 0] [[(1:ℚ), 1, 1], [(0:ℚ), 0, 0]] []
    Mode.rgb (by simp) rfl).1

/-- Characterization of `a / B` by bounds, for positive `B`. -/
theorem div_eq_iff_block (B : ℕ) (hB : 0 < B) (a x : ℕ) :
    a / B = x ↔ x * B ≤ a ∧ a < x * B + B := by
  constructor
  · rintro rfl
    refine ⟨Nat.div_mul_le_self a B, ?_⟩
    have h1 := Nat.div_add_mod a B
    have h2 := Nat.mod_lt a hB
    calc a = B * (a / B) + a % B := h1.symm
    _ < B * (a / B) + B := Nat.add_lt_add_left h2 _
    _ = a / B * B + B := by rw [mul_comm]
  · rintro ⟨h1, h2⟩
    have hle : x ≤ a / B := (Nat.le_div_iff_mul_le hB).2 h1
    have hlt : a / B < x + 1 := (Nat.div_lt_iff_lt_mul hB).2 (by rw [Nat.succ_mul]; exact h2)
    exact Nat.le_antisymm (Nat.lt_succ_iff.1 hlt) hle

/-- Membership in `inBlock` is exactly: in range, and the block index is the
coordinate divided by the block size. -/
theorem inBlock_iff (W H B x y a b : ℕ) (hB : 0 < B) :
    inBlock W H B x y a b ↔ (a < W ∧ b < H ∧ a / B = x ∧ b / B = y) := by
  have key : ∀ L c z : ℕ,
      (z * B ≤ c ∧ c < z * B + min B (L - z * B)) ↔ (c < L ∧ c / B = z) := by
    intro L c z
    rw [div_eq_iff_block B hB c z]
    obtain ⟨t, ht⟩ : ∃ t, z * B = t := ⟨_, rfl⟩
    rw [ht]
    rcases le_total B (L - t) with hm | hm
    · rw [min_eq_left hm]; omega
    · rw [min_eq_right hm]; omega
  unfold inBlock
  constructor
  · rintro ⟨h1, h2, h3, h4⟩
    obtain ⟨haW, hax⟩ := (key W a x).1 ⟨h1, h2⟩
    obtain ⟨hbH, hby⟩ := (key H b y).1 ⟨h3, h4⟩
    exact ⟨haW, hbH, hax, hby⟩
  · rintro ⟨haW, hbH, hax, hby⟩
    obtain ⟨h1, h2⟩ := (key W a x).2 ⟨haW, hax⟩
    obtain ⟨h3, h4⟩ := (key H b y).2 ⟨hbH, hby⟩
    exact ⟨h1, h2, h3, h4⟩

/-- Ceiling division dominates: `W ≤ ⌈W/B⌉ * B`. -/
theorem le_blockWidth_mul (W B : ℕ) (hB : 1 ≤ B) : W ≤ blockWidth W B * B := by
  unfold blockWidth
  have h1 := Nat.div_add_mod (W + B - 1) B
  have h2 := Nat.mod_lt (W + B - 1) (show 0 < B by omega)
  obtain ⟨p, hp⟩ : ∃ p, B * ((W + B - 1) / B) = p := ⟨_, rfl⟩
  rw [hp] at h1
  have hq : (W + B - 1) / B * B = p := by rw [mul_comm]; exact hp
  rw [hq]
  omega

/-- Ceiling division is tight: `⌈W/B⌉ * B < W + B`. -/
theorem blockWidth_mul_lt (W B : ℕ) (hB : 1 ≤ B) : blockWidth W B * B < W + B := by
  unfold blockWidth
  have h1 := Nat.div_add_mod (W + B - 1) B
  obtain ⟨p, hp⟩ : ∃ p, B * ((W + B - 1) / B) = p := ⟨_, rfl⟩
  rw [hp] at h1
  have hq : (W + B - 1) / B * B = p := by rw [mul_comm]; exact hp
  rw [hq]
  omega

/-- An in-range coordinate's block index is within the grid. -/
theorem div_lt_blockWidth (W B a : ℕ) (hB : 1 ≤ B) (ha : a < W) :
    a / B < blockWidth W B := by
  by_contra hcon
  push_neg at hcon
  have h1 : blockWidth W B * B ≤ a / B * B := Nat.mul_le_mul_right B hcon
  have h2 : a / B * B ≤ a := Nat.div_mul_le_self a B
  have h3 : W ≤ a := le_trans (le_blockWidth_mul W B hB) (le_trans h1 h2)
  exact absurd ha (not_lt.2 h3)

/-- Function `blockWidth` agrees with the rational ceiling `⌈W/B⌉` of the source. -/
theorem blockWidth_eq_ceil (W B : ℕ) (hB : 1 ≤ B) :
    (blockWidth W B : ℤ) = ⌈(W : ℚ) / (B : ℚ)⌉ := by
  have hB0 : (0 : ℚ) < (B : ℚ) := by exact_mod_cast hB
  have h2 : W ≤ blockWidth W B * B := le_blockWidth_mul W B hB
  have h3 : blockWidth W B * B < W + B := blockWidth_mul_lt W B hB
  rw [eq_comm, Int.ceil_eq_iff]
  constructor
  · rw [lt_div_iff₀ hB0]
    push_cast
    have h3' : (blockWidth W B : ℚ) * B < W + B := by exact_mod_cast h3
    ring_nf
    ring_nf at h3'
    linarith
  · rw [div_le_iff₀ hB0]
    push_cast
    exact_mod_cast h2

/-- Processing one block establishes uniformity on that block and preserves
the loop invariant. -/
theorem processBlock_inv (buf0 : Buffer) (W H B : ℕ) (hB : 0 < B) (mode : Mode)
    (palette : List (List ℚ)) (done : List (ℕ × ℕ)) (st : Buffer × Memo) (xy : ℕ × ℕ)
    (h : InvAfter buf0 W H B done st.1) :
    InvAfter buf0 W H B (xy :: done) (processBlock W H B mode palette st xy).1 := by
  obtain ⟨h1, h2⟩ := h
  constructor
  · intro a b ha hb hmem
    have hne : (a / B, b / B) ≠ xy := fun he => hmem (he ▸ List.mem_cons_self _ _)
    have hnotin : (a / B, b / B) ∉ done := fun hd => hmem (List.mem_cons_of_mem _ hd)
    show (if inBlock W H B xy.1 xy.2 a b then _ else st.1 a b) = buf0 a b
    rw [if_neg, h1 a b ha hb hnotin]
    intro hib
    obtain ⟨_, _, hax, hby⟩ := (inBlock_iff W H B xy.1 xy.2 a b hB).1 hib
    exact hne (by rw [hax, hby])
  · intro a b c d ha hb hc hd hac hbd hmem
    show (if inBlock W H B xy.1 xy.2 a b then _ else st.1 a b) =
      (if inBlock W H B xy.1 xy.2 c d then _ else st.1 c d)
    by_cases hxy : (a / B, b / B) = (xy.1, xy.2)
    · have hxa : a / B = xy.1 := congrArg Prod.fst hxy
      have hxb : b / B = xy.2 := congrArg Prod.snd hxy
      rw [if_pos ((inBlock_iff W H B xy.1 xy.2 a b hB).2 ⟨ha, hb, hxa, hxb⟩),
        if_pos ((inBlock_iff W H B xy.1 xy.2 c d hB).2 ⟨hc, hd, hac ▸ hxa, hbd ▸ hxb⟩)]
    · have hmem' : (a / B, b / B) ∈ done := by
        rcases List.mem_cons.1 hmem with he | hd'
        · exact absurd he hxy
        · exact hd'
      rw [if_neg, if_neg]
      · exact h2 a b c d ha hb hc hd hac hbd hmem'
      · intro hib
        obtain ⟨_, _, hcx, hdy⟩ := (inBlock_iff W H B xy.1 xy.2 c d hB).1 hib
        exact hxy (by rw [hac, hbd, hcx, hdy])
      · intro hib
        obtain ⟨_, _, hax, hby⟩ := (inBlock_iff W H B xy.1 xy.2 a b hB).1 hib
        exact hxy (by rw [hax, hby])

/-- Folding the block loop over any block list preserves the invariant. -/
theorem foldl_inv (buf0 : Buffer) (W H B : ℕ) (hB : 0 < B) (mode : Mode)
    (palette : List (List ℚ)) :
    ∀ (L : List (ℕ × ℕ)) (done : List (ℕ × ℕ)) (st : Buffer × Memo),
      InvAfter buf0 W H B done st.1 →
      InvAfter buf0 W H B (L ++ done) ((L.foldl (processBlock W H B mode palette) st).1) := by
  intro L
  induction L with
  | nil => intro done st h; simpa using h
  | cons xy L ih =>
    intro done st h
    have hstep := processBlock_inv buf0 W H B hB mode palette done st xy h
    have hrec := ih (xy :: done) (processBlock W H B mode palette st xy) hstep
    constructor
    · intro a b ha hb hmem
      refine hrec.1 a b ha hb (fun hx => hmem ?_)
      simp only [List.mem_append, List.mem_cons] at hx ⊢
      tauto
    · intro a b c d ha hb hc hd hac hbd hmem
      refine hrec.2 a b c d ha hb hc hd hac hbd ?_
      simp only [List.mem_append, List.mem_cons] at hmem ⊢
      tauto

/-- C4: for positive dimensions and block size, `phixelate` works on a grid of
`ceil(W/B) × ceil(H/B)` blocks, every in-range pixel coordinate lies in
exactly one block of that grid, and after `phixelate` any two pixel positions
of the same block hold the identical pixel tuple. -/
theorem phixelate_partition_and_uniform (W H B : ℕ) (_hW : 1 ≤ W) (_hH : 1 ≤ H) (hB : 1 ≤ B)
    (buf : Buffer) (palette : List (List ℚ)) (mode : Mode) :
    ((blockWidth W B : ℤ) = ⌈(W : ℚ) / (B : ℚ)⌉ ∧
     (blockHeight H B : ℤ) = ⌈(H : ℚ) / (B : ℚ)⌉) ∧
    (∀ a b, a < W → b < H →
      ∃! xy : ℕ × ℕ, xy.1 < blockWidth W B ∧ xy.2 < blockHeight H B ∧
        inBlock W H B xy.1 xy.2 a b) ∧
    (∀ a b c d, a < W → b < H → c < W → d < H → a / B = c / B → b / B = d / B →
      phixelate W H buf palette B mode a b = phixelate W H buf palette B mode c d) := by
  have hB0 : 0 < B := hB
  refine ⟨⟨blockWidth_eq_ceil W B hB, blockWidth_eq_ceil H B hB⟩, ?_, ?_⟩
  · intro a b ha hb
    refine ⟨(a / B, b / B), ⟨div_lt_blockWidth W B a hB ha, div_lt_blockWidth H B b hB hb,
      (inBlock_iff W H B _ _ a b hB0).2 ⟨ha, hb, rfl, rfl⟩⟩, ?_⟩
    rintro ⟨x, y⟩ ⟨-, -, hin⟩
    obtain ⟨-, -, hax, hby⟩ := (inBlock_iff W H B x y a b hB0).1 hin
    simp [← hax, ← hby]
  · intro a b c d ha hb hc hd hac hbd
    have hinit : InvAfter buf W H B [] (buf, ([] : Memo)).1 :=
      ⟨fun _ _ _ _ _ => rfl, fun _ _ _ _ _ _ _ _ _ _ hmem => absurd hmem (List.not_mem_nil _)⟩
    have hfin := foldl_inv buf W H B hB0 mode palette (blockList W H B) [] (buf, ([] : Memo)) hinit
    have hmem : (a / B, b / B) ∈ blockList W H B ++ [] := by
      simp only [List.append_nil, blockList, List.mem_flatMap, List.mem_map, List.mem_range]
      exact ⟨a / B, div_lt_blockWidth W B a hB ha,
        ⟨b / B, div_lt_blockWidth H B b hB hb, rfl⟩⟩
    exact hfin.2 a b c d ha hb hc hd hac hbd hmem

/-- Witness for C4 at a concrete input: a 3×2 buffer, block size 2. -/
theorem phixelate_partition_and_uniform_witness :
    (((blockWidth 3 2 : ℤ) = ⌈(3 : ℚ) / (2 : ℚ)⌉ ∧
      (blockHeight 2 2 : ℤ) = ⌈(2 : ℚ) / (2 : ℚ)⌉) ∧
     (∀ a b, a < 3 → b < 2 →
       ∃! xy : ℕ × ℕ, xy.1 < blockWidth 3 2 ∧ xy.2 < blockHeight 2 2 ∧
         inBlock 3 2 2 xy.1 xy.2 a b) ∧
     (∀ a b c d, a < 3 → b < 2 → c < 3 → d < 2 → a / 2 = c / 2 → b / 2 = d / 2 →
       phixelate 3 2 (fun a b => [(a : ℚ), b, 0, 255]) [] 2 Mode.rgb a b =
         phixelate 3 2 (fun a b => [(a : ℚ), b, 0, 255]) [] 2 Mode.rgb c d)) :=
  phixelate_partition_and_uniform 3 2 2 (by decide) (by decide) (by decide)
    (fun a b => [(a : ℚ), b, 0, 255]) [] Mode.rgb

/-- C6: `phixel_crop` yields a buffer of exactly `floor(W/B)*B × floor(H/B)*B`
pixels whose contents are the corresponding corner region of the original,
the anchor selecting the corner: top anchors start at row 0 and bottom
anchors at `H - newH`, left anchors start at column 0 and right anchors at
`W - newW`. -/
theorem phixel_crop_corner_region (W H : ℕ) (buf : Buffer) (B : ℕ) (_hB : 1 ≤ B)
    (o : Orientation) :
    (phixel_crop W H buf B o).1 = W / B * B ∧
    (phixel_crop W H buf B o).2.1 = H / B * B ∧
    (∀ x y, x < W / B * B → y < H / B * B →
      (phixel_crop W H buf B o).2.2 x y =
        buf (x + (match o with
          | Orientation.tl => 0
          | Orientation.bl => 0
          | Orientation.tr => W - W / B * B
          | Orientation.br => W - W / B * B))
          (y + (match o with
          | Orientation.tl => 0
          | Orientation.tr => 0
          | Orientation.bl => H - H / B * B
          | Orientation.br => H - H / B * B))) := by
  have hWle : W / B * B ≤ W := Nat.div_mul_le_self W B
  have hHle : H / B * B ≤ H := Nat.div_mul_le_self H B
  cases o <;>
    refine ⟨?_, ?_, fun x y hx hy => rfl⟩ <;>
    simp only [phixel_crop, pilCrop] <;> omega

/-- Witness for C6 at a concrete input: the claim's 10×10 buffer with block
size 3, bottom-right anchor. -/
theorem phixel_crop_corner_region_witness :
    (phixel_crop 10 10 ((fun a b => [(a : ℚ), b]) : Buffer) 3 Orientation.br).1 = 10 / 3 * 3 ∧
    (phixel_crop 10 10 ((fun a b => [(a : ℚ), b]) : Buffer) 3 Orientation.br).2.1 = 10 / 3 * 3 ∧
    (∀ x y, x < 10 / 3 * 3 → y < 10 / 3 * 3 →
      (phixel_crop 10 10 ((fun a b => [(a : ℚ), b]) : Buffer) 3 Orientation.br).2.2 x y =
        ((fun a b => [(a : ℚ), b]) : Buffer) (x + (10 - 10 / 3 * 3)) (y + (10 - 10 / 3 * 3))) :=
  phixel_crop_corner_region 10 10 ((fun a b => [(a : ℚ), b]) : Buffer) 3 (by decide)
    Orientation.br

theorem pyMod1_self (x : ℚ) (h0 : 0 ≤ x) (h1 : x < 1) : pyMod1 x = x :=
  Int.fract_eq_self.2 ⟨h0, h1⟩

theorem pyMod1_eq_sub (x : ℚ) (n : ℤ) (h0 : (n : ℚ) ≤ x) (h1 : x < (n : ℚ) + 1) :
    pyMod1 x = x - n := by
  have hfl : ⌊x⌋ = n := Int.floor_eq_iff.2 ⟨h0, h1⟩
  unfold pyMod1
  rw [Int.fract, hfl]

theorem pyInt_eq (x : ℚ) (n : ℤ) (hn : 0 ≤ n) (h0 : (n : ℚ) ≤ x) (h1 : x < (n : ℚ) + 1) :
    pyInt x = n := by
  have hx : 0 ≤ x := le_trans (by exact_mod_cast hn) h0
  unfold pyInt
  rw [if_pos hx]
  exact Int.floor_eq_iff.2 ⟨h0, h1⟩

theorem pyInt_natCast (n : ℕ) : pyInt ((n : ℚ)) = n := by
  unfold pyInt
  rw [if_pos (Nat.cast_nonneg n), Int.floor_natCast]

theorem vRaw_seg1 (m1 m2 x : ℚ) (h : x < 1/6) : vRaw m1 m2 x = m1 + (m2 - m1) * x * 6 := by
  unfold vRaw; rw [if_pos h]

theorem vRaw_seg2 (m1 m2 x : ℚ) (h1 : 1/6 ≤ x) (h2 : x < 1/2) : vRaw m1 m2 x = m2 := by
  unfold vRaw; rw [if_neg (not_lt.2 h1), if_pos h2]

theorem vRaw_seg3 (m1 m2 x : ℚ) (h1 : 1/2 ≤ x) (h2 : x < 2/3) :
    vRaw m1 m2 x = m1 + (m2 - m1) * (2/3 - x) * 6 := by
  unfold vRaw; rw [if_neg (by linarith), if_neg (not_lt.2 h1), if_pos h2]

theorem vRaw_seg4 (m1 m2 x : ℚ) (h : 2/3 ≤ x) : vRaw m1 m2 x = m1 := by
  unfold vRaw; rw [if_neg (by linarith), if_neg (by linarith), if_neg (not_lt.2 h)]

/-- Exhaustive case split on the relative order of the three channels,
matching the branch structure of `colorsys`' hue computation. -/
theorem rgb_case_split (r g b : ℚ) (P : Prop)
    (hEq : r = g → g = b → P)
    (hA1 : b ≤ g → g < r → P)
    (hA2 : b < g → g = r → P)
    (hA3 : g < b → b ≤ r → P)
    (hB1 : b < r → r < g → P)
    (hB2 : b = r → r < g → P)
    (hB3 : r < b → b < g → P)
    (hB4 : r < b → b = g → P)
    (hC1 : r < g → g < b → P)
    (hC2 : r = g → g < b → P)
    (hC3 : g < r → r < b → P) : P := by
  rcases lt_trichotomy g r with h1 | h1 | h1
  · rcases lt_trichotomy r b with h2 | h2 | h2
    · exact hC3 h1 h2
    · exact hA3 (h2 ▸ h1) (le_of_eq h2.symm)
    · rcases le_or_lt b g with h3 | h3
      · exact hA1 h3 h1
      · exact hA3 h3 (le_of_lt h2)
  · rcases lt_trichotomy b g with h2 | h2 | h2
    · exact hA2 h2 h1
    · exact hEq h1.symm h2.symm
    · exact hC2 h1.symm h2
  · rcases lt_trichotomy g b with h2 | h2 | h2
    · exact hC1 h1 h2
    · exact hB4 (h2 ▸ h1) h2.symm
    · rcases lt_trichotomy b r with h3 | h3 | h3
      · exact hB1 h3 h1
      · exact hB2 h3 h1
      · exact hB3 h3 h2

theorem hsvRound_case_eq (r g b : ℚ) (h1 : r = g) (h2 : g = b) :
    hsvRound r g b = (r, g, b) := by
  subst h2; subst h1
  have hmin : minc r r r = r := by unfold minc; simp
  have hmax : maxc r r r = r := by unfold maxc; simp
  unfold hsvRound
  unfold colorsys_rgb_to_hsv
  rw [hmin, hmax, if_pos rfl]
  dsimp only
  unfold colorsys_hsv_to_rgb
  rw [if_pos rfl]

theorem hsvRound_case_A1 (r g b : ℚ) (hb0 : 0 ≤ b) (hbg : b ≤ g) (hgr : g < r) :
    hsvRound r g b = (r, g, b) := by
  have hmax : maxc r g b = r := by
    unfold maxc; rw [max_eq_left hbg]; exact max_eq_left (le_of_lt hgr)
  have hmin : minc r g b = b := by
    unfold minc; rw [min_eq_right hbg]
    exact min_eq_right (le_of_lt (lt_of_le_of_lt hbg hgr))
  have hΔ : 0 < r - b := by linarith
  have hr0 : 0 < r := by linarith
  have hne : minc r g b ≠ maxc r g b := by rw [hmin, hmax]; exact ne_of_lt (by linarith)
  have hu : hueRaw r g b = (g - b) / (r - b) := by
    unfold hueRaw
    rw [hmax, hmin, if_pos rfl, div_sub_div_same]
    congr 1
    ring
  have hu0 : (0:ℚ) ≤ (g - b) / (r - b) := div_nonneg (by linarith) (le_of_lt hΔ)
  have hu1 : (g - b) / (r - b) < 1 := (div_lt_one hΔ).2 (by linarith)
  have hmod : pyMod1 (hueRaw r g b / 6) = (g - b) / (r - b) / 6 := by
    rw [hu]; exact pyMod1_self _ (by linarith) (by linarith)
  unfold hsvRound
  rw [show colorsys_rgb_to_hsv r g b =
    (pyMod1 (hueRaw r g b / 6), (maxc r g b - minc r g b) / maxc r g b, maxc r g b) by
      unfold colorsys_rgb_to_hsv; rw [if_neg hne]]
  dsimp only
  rw [hmod, hmax, hmin]
  have hs : (r - b) / r ≠ 0 := ne_of_gt (div_pos hΔ hr0)
  unfold colorsys_hsv_to_rgb
  rw [if_neg hs]
  have h6 : (g - b) / (r - b) / 6 * 6 = (g - b) / (r - b) := by ring
  rw [h6]
  rw [pyInt_eq ((g - b) / (r - b)) 0 le_rfl (by exact_mod_cast hu0) (by push_cast; linarith)]
  norm_num
  unfold hsvSector
  rw [if_pos rfl]
  simp only [Prod.mk.injEq]
  refine ⟨trivial, ?_, ?_⟩
  · field_simp
    ring
  · field_simp

theorem hsvRound_case_A2 (r g b : ℚ) (hb0 : 0 ≤ b) (hbg : b < g) (hgr : g = r) :
    hsvRound r g b = (r, g, b) := by
  have hbr : b < r := hgr ▸ hbg
  have hmax : maxc r g b = r := by
    unfold maxc; rw [max_eq_left (le_of_lt hbg)]; exact max_eq_left (le_of_eq hgr)
  have hmin : minc r g b = b := by
    unfold minc; rw [min_eq_right (le_of_lt hbg)]; exact min_eq_right (le_of_lt hbr)
  have hΔ : 0 < r - b := by linarith
  have hr0 : 0 < r := by linarith
  have hne : minc r g b ≠ maxc r g b := by rw [hmin, hmax]; exact ne_of_lt (by linarith)
  have hu : hueRaw r g b = (g - b) / (r - b) := by
    unfold hueRaw
    rw [hmax, hmin, if_pos rfl, div_sub_div_same]
    congr 1
    ring
  have hu1 : (g - b) / (r - b) = 1 := by rw [hgr]; exact div_self (ne_of_gt hΔ)
  have hmod : pyMod1 (hueRaw r g b / 6) = 1 / 6 := by
    rw [hu, hu1]; exact pyMod1_self _ (by norm_num) (by norm_num)
  unfold hsvRound
  rw [show colorsys_rgb_to_hsv r g b =
    (pyMod1 (hueRaw r g b / 6), (maxc r g b - minc r g b) / maxc r g b, maxc r g b) by
      unfold colorsys_rgb_to_hsv; rw [if_neg hne]]
  dsimp only
  rw [hmod, hmax, hmin]
  have hs : (r - b) / r ≠ 0 := ne_of_gt (div_pos hΔ hr0)
  unfold colorsys_hsv_to_rgb
  rw [if_neg hs]
  have h6 : (1:ℚ) / 6 * 6 = 1 := by norm_num
  rw [h6, pyInt_eq 1 1 (by norm_num) (by norm_num) (by norm_num)]
  norm_num
  unfold hsvSector
  rw [if_neg (by decide), if_pos rfl]
  simp only [Prod.mk.injEq]
  refine ⟨by ring, hgr.symm, by field_simp⟩

theorem hsvRound_case_A3 (r g b : ℚ) (hg0 : 0 ≤ g) (hgb : g < b) (hbr : b ≤ r) :
    hsvRound r g b = (r, g, b) := by
  have hgr : g < r := lt_of_lt_of_le hgb hbr
  have hmax : maxc r g b = r := by
    unfold maxc; rw [max_eq_right (le_of_lt hgb)]; exact max_eq_left hbr
  have hmin : minc r g b = g := by
    unfold minc; rw [min_eq_left (le_of_lt hgb)]; exact min_eq_right (le_of_lt hgr)
  have hΔ : 0 < r - g := by linarith
  have hr0 : 0 < r := by linarith
  have hne : minc r g b ≠ maxc r g b := by rw [hmin, hmax]; exact ne_of_lt (by linarith)
  have hu : hueRaw r g b = (g - b) / (r - g) := by
    unfold hueRaw
    rw [hmax, hmin, if_pos rfl, div_sub_div_same]
    congr 1
    ring
  have hulo : (-1 : ℚ) ≤ (g - b) / (r - g) := (le_div_iff₀ hΔ).2 (by linarith)
  have huhi : (g - b) / (r - g) < 0 := div_neg_of_neg_of_pos (by linarith) hΔ
  have hmod : pyMod1 (hueRaw r g b / 6) = (g - b) / (r - g) / 6 - (-1 : ℤ) := by
    rw [hu]
    exact pyMod1_eq_sub _ (-1) (by push_cast; linarith) (by push_cast; linarith)
  unfold hsvRound
  rw [show colorsys_rgb_to_hsv r g b =
    (pyMod1 (hueRaw r g b / 6), (maxc r g b - minc r g b) / maxc r g b, maxc r g b) by
      unfold colorsys_rgb_to_hsv; rw [if_neg hne]]
  dsimp only
  rw [hmod, hmax, hmin]
  have hs : (r - g) / r ≠ 0 := ne_of_gt (div_pos hΔ hr0)
  unfold colorsys_hsv_to_rgb
  rw [if_neg hs]
  have h6 : ((g - b) / (r - g) / 6 - (-1 : ℤ)) * 6 = (g - b) / (r - g) + 6 := by
    push_cast; ring
  rw [h6, pyInt_eq ((g - b) / (r - g) + 6) 5 (by norm_num) (by push_cast; linarith)
    (by push_cast; linarith)]
  norm_num
  unfold hsvSector
  rw [if_neg (by decide), if_neg (by decide), if_neg (by decide), if_neg (by decide),
    if_neg (by decide)]
  simp only [Prod.mk.injEq]
  refine ⟨trivial, by field_simp, ?_⟩
  field_simp
  ring

theorem hsvRound_case_B1 (r g b : ℚ) (hb0 : 0 ≤ b) (hbr : b < r) (hrg : r < g) :
    hsvRound r g b = (r, g, b) := by
  have hbg : b < g := lt_trans hbr hrg
  have hmax : maxc r g b = g := by
    unfold maxc; rw [max_eq_left (le_of_lt hbg)]; exact max_eq_right (le_of_lt hrg)
  have hmin : minc r g b = b := by
    unfold minc; rw [min_eq_right (le_of_lt hbg)]; exact min_eq_right (le_of_lt hbr)
  have hΔ : 0 < g - b := by linarith
  have hg0 : 0 < g := by linarith
  have hne : minc r g b ≠ maxc r g b := by rw [hmin, hmax]; exact ne_of_lt (by linarith)
  have hu : hueRaw r g b = 2 + (b - r) / (g - b) := by
    unfold hueRaw
    rw [hmax, hmin, if_neg (ne_of_lt hrg), if_pos rfl]
    field_simp
    ring
  have hulo : (-1 : ℚ) < (b - r) / (g - b) := (lt_div_iff₀ hΔ).2 (by linarith)
  have huhi : (b - r) / (g - b) < 0 := div_neg_of_neg_of_pos (by linarith) hΔ
  have hmod : pyMod1 (hueRaw r g b / 6) = (2 + (b - r) / (g - b)) / 6 := by
    rw [hu]; exact pyMod1_self _ (by linarith) (by linarith)
  unfold hsvRound
  rw [show colorsys_rgb_to_hsv r g b =
    (pyMod1 (hueRaw r g b / 6), (maxc r g b - minc r g b) / maxc r g b, maxc r g b) by
      unfold colorsys_rgb_to_hsv; rw [if_neg hne]]
  dsimp only
  rw [hmod, hmax, hmin]
  have hs : (g - b) / g ≠ 0 := ne_of_gt (div_pos hΔ hg0)
  unfold colorsys_hsv_to_rgb
  rw [if_neg hs]
  have h6 : (2 + (b - r) / (g - b)) / 6 * 6 = 2 + (b - r) / (g - b) := by ring
  rw [h6, pyInt_eq (2 + (b - r) / (g - b)) 1 (by norm_num) (by push_cast; linarith)
    (by push_cast; linarith)]
  norm_num
  unfold hsvSector
  rw [if_neg (by decide), if_pos rfl]
  simp only [Prod.mk.injEq]
  refine ⟨?_, trivial, by field_simp⟩
  field_simp
  ring

theorem hsvRound_case_B2 (r g b : ℚ) (hb0 : 0 ≤ b) (hbr : b = r) (hrg : r < g) :
    hsvRound r g b = (r, g, b) := by
  subst hbr
  have hbg : b < g := hrg
  have hmax : maxc b g b = g := by
    unfold maxc; rw [max_eq_left (le_of_lt hbg)]; exact max_eq_right (le_of_lt hrg)
  have hmin : minc b g b = b := by
    unfold minc; rw [min_eq_right (le_of_lt hbg)]; exact min_self b
  have hΔ : 0 < g - b := by linarith
  have hg0 : 0 < g := by linarith
  have hne : minc b g b ≠ maxc b g b := by rw [hmin, hmax]; exact ne_of_lt (by linarith)
  have hu : hueRaw b g b = 2 := by
    unfold hueRaw
    rw [hmax, hmin, if_neg (ne_of_lt hrg), if_pos rfl]
    field_simp
  have hmod : pyMod1 (hueRaw b g b / 6) = 2 / 6 := by
    rw [hu]; exact pyMod1_self _ (by norm_num) (by norm_num)
  unfold hsvRound
  rw [show colorsys_rgb_to_hsv b g b =
    (pyMod1 (hueRaw b g b / 6), (maxc b g b - minc b g b) / maxc b g b, maxc b g b) by
      unfold colorsys_rgb_to_hsv; rw [if_neg hne]]
  dsimp only
  rw [hmod, hmax, hmin]
  have hs : (g - b) / g ≠ 0 := ne_of_gt (div_pos hΔ hg0)
  unfold colorsys_hsv_to_rgb
  rw [if_neg hs]
  have h6 : (2 : ℚ) / 6 * 6 = 2 := by norm_num
  rw [h6, pyInt_eq 2 2 (by norm_num) (by norm_num) (by norm_num)]
  norm_num
  unfold hsvSector
  rw [if_neg (by decide), if_neg (by decide), if_pos rfl]
  simp only [Prod.mk.injEq]
  refine ⟨by field_simp, trivial, ?_⟩
  field_simp

theorem hsvRound_case_B3 (r g b : ℚ) (hr0 : 0 ≤ r) (hrb : r < b) (hbg : b < g) :
    hsvRound r g b = (r, g, b) := by
  have hrg : r < g := lt_trans hrb hbg
  have hmax : maxc r g b = g := by
    unfold maxc; rw [max_eq_left (le_of_lt hbg)]; exact max_eq_right (le_of_lt hrg)
  have hmin : minc r g b = r := by
    unfold minc; rw [min_eq_right (le_of_lt hbg)]; exact min_eq_left (le_of_lt hrb)
  have hΔ : 0 < g - r := by linarith
  have hg0 : 0 < g := by linarith
  have hne : minc r g b ≠ maxc r g b := by rw [hmin, hmax]; exact ne_of_lt (by linarith)
  have hu : hueRaw r g b = 2 + (b - r) / (g - r) := by
    unfold hueRaw
    rw [hmax, hmin, if_neg (ne_of_lt hrg), if_pos rfl]
    field_simp
    ring
  have hulo : (0 : ℚ) < (b - r) / (g - r) := div_pos (by linarith) hΔ
  have huhi : (b - r) / (g - r) < 1 := (div_lt_one hΔ).2 (by linarith)
  have hmod : pyMod1 (hueRaw r g b / 6) = (2 + (b - r) / (g - r)) / 6 := by
    rw [hu]; exact pyMod1_self _ (by linarith) (by linarith)
  unfold hsvRound
  rw [show colorsys_rgb_to_hsv r g b =
    (pyMod1 (hueRaw r g b / 6), (maxc r g b - minc r g b) / maxc r g b, maxc r g b) by
      unfold colorsys_rgb_to_hsv; rw [if_neg hne]]
  dsimp only
  rw [hmod, hmax, hmin]
  have hs : (g - r) / g ≠ 0 := ne_of_gt (div_pos hΔ hg0)
  unfold colorsys_hsv_to_rgb
  rw [if_neg hs]
  have h6 : (2 + (b - r) / (g - r)) / 6 * 6 = 2 + (b - r) / (g - r) := by ring
  rw [h6, pyInt_eq (2 + (b - r) / (g - r)) 2 (by norm_num) (by push_cast; linarith)
    (by push_cast; linarith)]
  norm_num
  unfold hsvSector
  rw [if_neg (by decide), if_neg (by decide), if_pos rfl]
  simp only [Prod.mk.injEq]
  refine ⟨by field_simp, trivial, ?_⟩
  field_simp
  ring

theorem hsvRound_case_B4 (r g b : ℚ) (hr0 : 0 ≤ r) (hrb : r < b) (hbg : b = g) :
    hsvRound r g b = (r, g, b) := by
  subst hbg
  have hrg : r < b := hrb
  have hmax : maxc r b b = b := by
    unfold maxc; rw [max_self]; exact max_eq_right (le_of_lt hrg)
  have hmin : minc r b b = r := by
    unfold minc; rw [min_self]; exact min_eq_left (le_of_lt hrb)
  have hΔ : 0 < b - r := by linarith
  have hb0 : 0 < b := by linarith
  have hne : minc r b b ≠ maxc r b b := by rw [hmin, hmax]; exact ne_of_lt (by linarith)
  have hu : hueRaw r b b = 3 := by
    unfold hueRaw
    rw [hmax, hmin, if_neg (ne_of_lt hrg), if_pos rfl]
    field_simp
    ring
  have hmod : pyMod1 (hueRaw r b b / 6) = 3 / 6 := by
    rw [hu]; exact pyMod1_self _ (by norm_num) (by norm_num)
  unfold hsvRound
  rw [show colorsys_rgb_to_hsv r b b =
    (pyMod1 (hueRaw r b b / 6), (maxc r b b - minc r b b) / maxc r b b, maxc r b b) by
      unfold colorsys_rgb_to_hsv; rw [if_neg hne]]
  dsimp only
  rw [hmod, hmax, hmin]
  have hs : (b - r) / b ≠ 0 := ne_of_gt (div_pos hΔ hb0)
  unfold colorsys_hsv_to_rgb
  rw [if_neg hs]
  have h6 : (3 : ℚ) / 6 * 6 = 3 := by norm_num
  rw [h6, pyInt_eq 3 3 (by norm_num) (by norm_num) (by norm_num)]
  norm_num
  unfold hsvSector
  rw [if_neg (by decide), if_neg (by decide), if_neg (by decide), if_pos rfl]
  simp only [Prod.mk.injEq]
  refine ⟨by field_simp, by ring, trivial⟩

theorem hsvRound_case_C1 (r g b : ℚ) (hr0 : 0 ≤ r) (hrg : r < g) (hgb : g < b) :
    hsvRound r g b = (r, g, b) := by
  have hrb : r < b := lt_trans hrg hgb
  have hmax : maxc r g b = b := by
    unfold maxc; rw [max_eq_right (le_of_lt hgb)]; exact max_eq_right (le_of_lt hrb)
  have hmin : minc r g b = r := by
    unfold minc; rw [min_eq_left (le_of_lt hgb)]; exact min_eq_left (le_of_lt hrg)
  have hΔ : 0 < b - r := by linarith
  have hb0 : 0 < b := by linarith
  have hne : minc r g b ≠ maxc r g b := by rw [hmin, hmax]; exact ne_of_lt (by linarith)
  have hu : hueRaw r g b = 4 + (r - g) / (b - r) := by
    unfold hueRaw
    rw [hmax, hmin, if_neg (ne_of_lt hrb), if_neg (ne_of_lt hgb)]
    field_simp
    ring
  have hulo : (-1 : ℚ) < (r - g) / (b - r) := (lt_div_iff₀ hΔ).2 (by linarith)
  have huhi : (r - g) / (b - r) < 0 := div_neg_of_neg_of_pos (by linarith) hΔ
  have hmod : pyMod1 (hueRaw r g b / 6) = (4 + (r - g) / (b - r)) / 6 := by
    rw [hu]; exact pyMod1_self _ (by linarith) (by linarith)
  unfold hsvRound
  rw [show colorsys_rgb_to_hsv r g b =
    (pyMod1 (hueRaw r g b / 6), (maxc r g b - minc r g b) / maxc r g b, maxc r g b) by
      unfold colorsys_rgb_to_hsv; rw [if_neg hne]]
  dsimp only
  rw [hmod, hmax, hmin]
  have hs : (b - r) / b ≠ 0 := ne_of_gt (div_pos hΔ hb0)
  unfold colorsys_hsv_to_rgb
  rw [if_neg hs]
  have h6 : (4 + (r - g) / (b - r)) / 6 * 6 = 4 + (r - g) / (b - r) := by ring
  rw [h6, pyInt_eq (4 + (r - g) / (b - r)) 3 (by norm_num) (by push_cast; linarith)
    (by push_cast; linarith)]
  norm_num
  unfold hsvSector
  rw [if_neg (by decide), if_neg (by decide), if_neg (by decide), if_pos rfl]
  simp only [Prod.mk.injEq]
  refine ⟨by field_simp, ?_, trivial⟩
  field_simp
  ring

theorem hsvRound_case_C2 (r g b : ℚ) (hg0 : 0 ≤ g) (hrg : r = g) (hgb : g < b) :
    hsvRound r g b = (r, g, b) := by
  subst hrg
  have hrb : r < b := hgb
  have hmax : maxc r r b = b := by
    unfold maxc; rw [max_eq_right (le_of_lt hgb)]; exact max_eq_right (le_of_lt hrb)
  have hmin : minc r r b = r := by
    unfold minc; rw [min_eq_left (le_of_lt hgb)]; exact min_self r
  have hΔ : 0 < b - r := by linarith
  have hb0 : 0 < b := by linarith
  have hne : minc r r b ≠ maxc r r b := by rw [hmin, hmax]; exact ne_of_lt (by linarith)
  have hu : hueRaw r r b = 4 := by
    unfold hueRaw
    rw [hmax, hmin, if_neg (ne_of_lt hrb), if_neg (ne_of_lt hgb)]
    field_simp
  have hmod : pyMod1 (hueRaw r r b / 6) = 4 / 6 := by
    rw [hu]; exact pyMod1_self _ (by norm_num) (by norm_num)
  unfold hsvRound
  rw [show colorsys_rgb_to_hsv r r b =
    (pyMod1 (hueRaw r r b / 6), (maxc r r b - minc r r b) / maxc r r b, maxc r r b) by
      unfold colorsys_rgb_to_hsv; rw [if_neg hne]]
  dsimp only
  rw [hmod, hmax, hmin]
  have hs : (b - r) / b ≠ 0 := ne_of_gt (div_pos hΔ hb0)
  unfold colorsys_hsv_to_rgb
  rw [if_neg hs]
  have h6 : (4 : ℚ) / 6 * 6 = 4 := by norm_num
  rw [h6, pyInt_eq 4 4 (by norm_num) (by norm_num) (by norm_num)]
  norm_num
  unfold hsvSector
  rw [if_neg (by decide), if_neg (by decide), if_neg (by decide), if_neg (by decide),
    if_pos rfl]
  simp only [Prod.mk.injEq]
  refine ⟨?_, by field_simp, trivial⟩
  field_simp

theorem hsvRound_case_C3 (r g b : ℚ) (hg0 : 0 ≤ g) (hgr : g < r) (hrb : r < b) :
    hsvRound r g b = (r, g, b) := by
  have hgb : g < b := lt_trans hgr hrb
  have hmax : maxc r g b = b := by
    unfold maxc; rw [max_eq_right (le_of_lt hgb)]; exact max_eq_right (le_of_lt hrb)
  have hmin : minc r g b = g := by
    unfold minc; rw [min_eq_left (le_of_lt hgb)]; exact min_eq_right (le_of_lt hgr)
  have hΔ : 0 < b - g := by linarith
  have hb0 : 0 < b := by linarith
  have hne : minc r g b ≠ maxc r g b := by rw [hmin, hmax]; exact ne_of_lt (by linarith)
  have hu : hueRaw r g b = 4 + (r - g) / (b - g) := by
    unfold hueRaw
    rw [hmax, hmin, if_neg (ne_of_lt hrb), if_neg (ne_of_lt hgb)]
    field_simp
    ring
  have hulo : (0 : ℚ) < (r - g) / (b - g) := div_pos (by linarith) hΔ
  have huhi : (r - g) / (b - g) < 1 := (div_lt_one hΔ).2 (by linarith)
  have hmod : pyMod1 (hueRaw r g b / 6) = (4 + (r - g) / (b - g)) / 6 := by
    rw [hu]; exact pyMod1_self _ (by linarith) (by linarith)
  unfold hsvRound
  rw [show colorsys_rgb_to_hsv r g b =
    (pyMod1 (hueRaw r g b / 6), (maxc r g b - minc r g b) / maxc r g b, maxc r g b) by
      unfold colorsys_rgb_to_hsv; rw [if_neg hne]]
  dsimp only
  rw [hmod, hmax, hmin]
  have hs : (b - g) / b ≠ 0 := ne_of_gt (div_pos hΔ hb0)
  unfold colorsys_hsv_to_rgb
  rw [if_neg hs]
  have h6 : (4 + (r - g) / (b - g)) / 6 * 6 = 4 + (r - g) / (b - g) := by ring
  rw [h6, pyInt_eq (4 + (r - g) / (b - g)) 4 (by norm_num) (by push_cast; linarith)
    (by push_cast; linarith)]
  norm_num
  unfold hsvSector
  rw [if_neg (by decide), if_neg (by decide), if_neg (by decide), if_neg (by decide),
    if_pos rfl]
  simp only [Prod.mk.injEq]
  refine ⟨?_, by field_simp, trivial⟩
  field_simp
  ring

/-- The `colorsys` HSV round trip is exact on nonnegative rational channels. -/
theorem hsvRound_exact (r g b : ℚ) (hr : 0 ≤ r) (hg : 0 ≤ g) (hb : 0 ≤ b) :
    hsvRound r g b = (r, g, b) := by
  refine rgb_case_split r g b _ ?_ ?_ ?_ ?_ ?_ ?_ ?_ ?_ ?_ ?_ ?_
  · exact hsvRound_case_eq r g b
  · exact hsvRound_case_A1 r g b hb
  · exact hsvRound_case_A2 r g b hb
  · exact hsvRound_case_A3 r g b hg
  · exact hsvRound_case_B1 r g b hb
  · exact hsvRound_case_B2 r g b hb
  · exact hsvRound_case_B3 r g b hr
  · exact hsvRound_case_B4 r g b hr
  · exact hsvRound_case_C1 r g b hr
  · exact hsvRound_case_C2 r g b hg
  · exact hsvRound_case_C3 r g b hg

theorem pyMod1_add_one (x : ℚ) (h0 : -1 ≤ x) (h1 : x < 0) : pyMod1 x = x + 1 := by
  rw [pyMod1_eq_sub x (-1) (by push_cast; linarith) (by push_cast; linarith)]
  push_cast
  ring

theorem pyMod1_sub_one (x : ℚ) (h0 : 1 ≤ x) (h1 : x < 2) : pyMod1 x = x - 1 := by
  rw [pyMod1_eq_sub x 1 (by push_cast; linarith) (by push_cast; linarith)]
  push_cast
  ring

/-- `m2` of `colorsys.hls_to_rgb` recovers the channel maximum in both
lightness branches. -/
theorem hlsM2_max (m M : ℚ) (h0 : 0 ≤ m) (hmM : m < M) (hM1 : M ≤ 1) :
    hlsM2 ((m + M) / 2)
      (if (m + M) / 2 ≤ 1/2 then (M - m) / (M + m) else (M - m) / (2 - M - m)) = M := by
  have hM0 : 0 < M := lt_of_le_of_lt h0 hmM
  by_cases hl : (m + M) / 2 ≤ 1/2
  · rw [if_pos hl]; unfold hlsM2; rw [if_pos hl]
    have hMm : 0 < M + m := by linarith
    field_simp
    ring
  · rw [if_neg hl]; unfold hlsM2; rw [if_neg hl]
    push_neg at hl
    have h2 : 0 < 2 - M - m := by linarith
    field_simp
    ring

/-- The `s` expression of `rgb_to_hls` is positive whenever the channels are
not all equal (given bounds). -/
theorem hls_s_pos (m M : ℚ) (h0 : 0 ≤ m) (hmM : m < M) (hM1 : M ≤ 1) :
    0 < (if (m + M) / 2 ≤ 1/2 then (M - m) / (M + m) else (M - m) / (2 - M - m)) := by
  have hM0 : 0 < M := lt_of_le_of_lt h0 hmM
  by_cases hl : (m + M) / 2 ≤ 1/2
  · rw [if_pos hl]; exact div_pos (by linarith) (by linarith)
  · rw [if_neg hl]; push_neg at hl; exact div_pos (by linarith) (by linarith)

theorem hlsRound_case_eq (r g b : ℚ) (h1 : r = g) (h2 : g = b) :
    hlsRound r g b = (r, g, b) := by
  subst h2; subst h1
  have hmin : minc r r r = r := by unfold minc; simp
  have hmax : maxc r r r = r := by unfold maxc; simp
  unfold hlsRound
  unfold colorsys_rgb_to_hls
  rw [hmin, hmax, if_pos rfl]
  dsimp only
  unfold colorsys_hls_to_rgb
  rw [if_pos rfl]
  unfold hlsL
  rw [hmin, hmax]
  have : (r + r) / 2 = r := by ring
  rw [this]

theorem hlsRound_case_A1 (r g b : ℚ) (hb0 : 0 ≤ b) (hr1 : r ≤ 1) (hbg : b ≤ g)
    (hgr : g < r) : hlsRound r g b = (r, g, b) := by
  have hmax : maxc r g b = r := by
    unfold maxc; rw [max_eq_left hbg]; exact max_eq_left (le_of_lt hgr)
  have hmin : minc r g b = b := by
    unfold minc; rw [min_eq_right hbg]
    exact min_eq_right (le_of_lt (lt_of_le_of_lt hbg hgr))
  have hΔ : 0 < r - b := by linarith
  have hne : minc r g b ≠ maxc r g b := by rw [hmin, hmax]; exact ne_of_lt (by linarith)
  have hu : hueRaw r g b = (g - b) / (r - b) := by
    unfold hueRaw
    rw [hmax, hmin, if_pos rfl, div_sub_div_same]
    congr 1
    ring
  have hu0 : (0:ℚ) ≤ (g - b) / (r - b) := div_nonneg (by linarith) (le_of_lt hΔ)
  have hu1 : (g - b) / (r - b) < 1 := (div_lt_one hΔ).2 (by linarith)
  have hmod : pyMod1 (hueRaw r g b / 6) = (g - b) / (r - b) / 6 := by
    rw [hu]; exact pyMod1_self _ (by linarith) (by linarith)
  unfold hlsRound
  rw [show colorsys_rgb_to_hls r g b =
    (pyMod1 (hueRaw r g b / 6), hlsL r g b,
      if hlsL r g b ≤ 1/2 then (maxc r g b - minc r g b) / (maxc r g b + minc r g b)
      else (maxc r g b - minc r g b) / (2 - maxc r g b - minc r g b)) by
      unfold colorsys_rgb_to_hls; rw [if_neg hne]]
  dsimp only
  unfold hlsL
  rw [hmod, hmax, hmin]
  have hS := hls_s_pos b r hb0 (by linarith) hr1
  have hM2 := hlsM2_max b r hb0 (by linarith) hr1
  unfold colorsys_hls_to_rgb
  rw [if_neg (ne_of_gt hS), hM2, show (2 : ℚ) * ((b + r) / 2) - r = b from by ring]
  unfold colorsys_v
  rw [pyMod1_self ((g - b) / (r - b) / 6 + 1/3) (by linarith) (by linarith),
    pyMod1_self ((g - b) / (r - b) / 6) (by linarith) (by linarith),
    pyMod1_add_one ((g - b) / (r - b) / 6 - 1/3) (by linarith) (by linarith),
    vRaw_seg2 b r ((g - b) / (r - b) / 6 + 1/3) (by linarith) (by linarith),
    vRaw_seg1 b r ((g - b) / (r - b) / 6) (by linarith),
    vRaw_seg4 b r ((g - b) / (r - b) / 6 - 1/3 + 1) (by linarith)]
  simp only [Prod.mk.injEq]
  refine ⟨trivial, ?_, trivial⟩
  field_simp
  ring

theorem hlsRound_case_A2 (r g b : ℚ) (hb0 : 0 ≤ b) (hr1 : r ≤ 1) (hbg : b < g)
    (hgr : g = r) : hlsRound r g b = (r, g, b) := by
  have hbr : b < r := hgr ▸ hbg
  have hmax : maxc r g b = r := by
    unfold maxc; rw [max_eq_left (le_of_lt hbg)]; exact max_eq_left (le_of_eq hgr)
  have hmin : minc r g b = b := by
    unfold minc; rw [min_eq_right (le_of_lt hbg)]; exact min_eq_right (le_of_lt hbr)
  have hΔ : 0 < r - b := by linarith
  have hne : minc r g b ≠ maxc r g b := by rw [hmin, hmax]; exact ne_of_lt (by linarith)
  have hu : hueRaw r g b = (g - b) / (r - b) := by
    unfold hueRaw
    rw [hmax, hmin, if_pos rfl, div_sub_div_same]
    congr 1
    ring
  have hu1 : (g - b) / (r - b) = 1 := by rw [hgr]; exact div_self (ne_of_gt hΔ)
  have hmod : pyMod1 (hueRaw r g b / 6) = 1 / 6 := by
    rw [hu, hu1]; exact pyMod1_self _ (by norm_num) (by norm_num)
  unfold hlsRound
  rw [show colorsys_rgb_to_hls r g b =
    (pyMod1 (hueRaw r g b / 6), hlsL r g b,
      if hlsL r g b ≤ 1/2 then (maxc r g b - minc r g b) / (maxc r g b + minc r g b)
      else (maxc r g b - minc r g b) / (2 - maxc r g b - minc r g b)) by
      unfold colorsys_rgb_to_hls; rw [if_neg hne]]
  dsimp only
  unfold hlsL
  rw [hmod, hmax, hmin]
  have hS := hls_s_pos b r hb0 (by linarith) hr1
  have hM2 := hlsM2_max b r hb0 (by linarith) hr1
  unfold colorsys_hls_to_rgb
  rw [if_neg (ne_of_gt hS), hM2, show (2 : ℚ) * ((b + r) / 2) - r = b from by ring]
  unfold colorsys_v
  rw [pyMod1_self ((1:ℚ) / 6 + 1/3) (by norm_num) (by norm_num),
    pyMod1_self ((1:ℚ) / 6) (by norm_num) (by norm_num),
    pyMod1_add_one ((1:ℚ) / 6 - 1/3) (by norm_num) (by norm_num),
    vRaw_seg3 b r ((1:ℚ) / 6 + 1/3) (by norm_num) (by norm_num),
    vRaw_seg2 b r ((1:ℚ) / 6) (by norm_num) (by norm_num),
    vRaw_seg4 b r ((1:ℚ) / 6 - 1/3 + 1) (by norm_num)]
  simp only [Prod.mk.injEq]
  refine ⟨by ring, hgr.symm, trivial⟩

theorem hlsRound_case_A3 (r g b : ℚ) (hg0 : 0 ≤ g) (hr1 : r ≤ 1) (hgb : g < b)
    (hbr : b ≤ r) : hlsRound r g b = (r, g, b) := by
  have hgr : g < r := lt_of_lt_of_le hgb hbr
  have hmax : maxc r g b = r := by
    unfold maxc; rw [max_eq_right (le_of_lt hgb)]; exact max_eq_left hbr
  have hmin : minc r g b = g := by
    unfold minc; rw [min_eq_left (le_of_lt hgb)]; exact min_eq_right (le_of_lt hgr)
  have hΔ : 0 < r - g := by linarith
  have hne : minc r g b ≠ maxc r g b := by rw [hmin, hmax]; exact ne_of_lt (by linarith)
  have hu : hueRaw r g b = (g - b) / (r - g) := by
    unfold hueRaw
    rw [hmax, hmin, if_pos rfl, div_sub_div_same]
    congr 1
    ring
  have hulo : (-1 : ℚ) ≤ (g - b) / (r - g) := (le_div_iff₀ hΔ).2 (by linarith)
  have huhi : (g - b) / (r - g) < 0 := div_neg_of_neg_of_pos (by linarith) hΔ
  have hmod : pyMod1 (hueRaw r g b / 6) = (g - b) / (r - g) / 6 + 1 := by
    rw [hu]; exact pyMod1_add_one _ (by linarith) (by linarith)
  unfold hlsRound
  rw [show colorsys_rgb_to_hls r g b =
    (pyMod1 (hueRaw r g b / 6), hlsL r g b,
      if hlsL r g b ≤ 1/2 then (maxc r g b - minc r g b) / (maxc r g b + minc r g b)
      else (maxc r g b - minc r g b) / (2 - maxc r g b - minc r g b)) by
      unfold colorsys_rgb_to_hls; rw [if_neg hne]]
  dsimp only
  unfold hlsL
  rw [hmod, hmax, hmin]
  have hS := hls_s_pos g r hg0 (by linarith) hr1
  have hM2 := hlsM2_max g r hg0 (by linarith) hr1
  unfold colorsys_hls_to_rgb
  rw [if_neg (ne_of_gt hS), hM2, show (2 : ℚ) * ((g + r) / 2) - r = g from by ring]
  unfold colorsys_v
  rw [pyMod1_sub_one ((g - b) / (r - g) / 6 + 1 + 1/3) (by linarith) (by linarith),
    pyMod1_self ((g - b) / (r - g) / 6 + 1) (by linarith) (by linarith),
    pyMod1_self ((g - b) / (r - g) / 6 + 1 - 1/3) (by linarith) (by linarith),
    vRaw_seg2 g r ((g - b) / (r - g) / 6 + 1 + 1/3 - 1) (by linarith) (by linarith),
    vRaw_seg4 g r ((g - b) / (r - g) / 6 + 1) (by linarith),
    vRaw_seg3 g r ((g - b) / (r - g) / 6 + 1 - 1/3) (by linarith) (by linarith)]
  simp only [Prod.mk.injEq]
  refine ⟨trivial, trivial, ?_⟩
  field_simp
  ring

theorem hlsRound_case_B1 (r g b : ℚ) (hb0 : 0 ≤ b) (hg1 : g ≤ 1) (hbr : b < r)
    (hrg : r < g) : hlsRound r g b = (r, g, b) := by
  have hbg : b < g := lt_trans hbr hrg
  have hmax : maxc r g b = g := by
    unfold maxc; rw [max_eq_left (le_of_lt hbg)]; exact max_eq_right (le_of_lt hrg)
  have hmin : minc r g b = b := by
    unfold minc; rw [min_eq_right (le_of_lt hbg)]; exact min_eq_right (le_of_lt hbr)
  have hΔ : 0 < g - b := by linarith
  have hne : minc r g b ≠ maxc r g b := by rw [hmin, hmax]; exact ne_of_lt (by linarith)
  have hu : hueRaw r g b = 2 + (b - r) / (g - b) := by
    unfold hueRaw
    rw [hmax, hmin, if_neg (ne_of_lt hrg), if_pos rfl]
    field_simp
    ring
  have hulo : (-1 : ℚ) < (b - r) / (g - b) := (lt_div_iff₀ hΔ).2 (by linarith)
  have huhi : (b - r) / (g - b) < 0 := div_neg_of_neg_of_pos (by linarith) hΔ
  have hmod : pyMod1 (hueRaw r g b / 6) = (2 + (b - r) / (g - b)) / 6 := by
    rw [hu]; exact pyMod1_self _ (by linarith) (by linarith)
  unfold hlsRound
  rw [show colorsys_rgb_to_hls r g b =
    (pyMod1 (hueRaw r g b / 6), hlsL r g b,
      if hlsL r g b ≤ 1/2 then (maxc r g b - minc r g b) / (maxc r g b + minc r g b)
      else (maxc r g b - minc r g b) / (2 - maxc r g b - minc r g b)) by
      unfold colorsys_rgb_to_hls; rw [if_neg hne]]
  dsimp only
  unfold hlsL
  rw [hmod, hmax, hmin]
  have hS := hls_s_pos b g hb0 (by linarith) hg1
  have hM2 := hlsM2_max b g hb0 (by linarith) hg1
  unfold colorsys_hls_to_rgb
  rw [if_neg (ne_of_gt hS), hM2, show (2 : ℚ) * ((b + g) / 2) - g = b from by ring]
  unfold colorsys_v
  rw [pyMod1_self ((2 + (b - r) / (g - b)) / 6 + 1/3) (by linarith) (by linarith),
    pyMod1_self ((2 + (b - r) / (g - b)) / 6) (by linarith) (by linarith),
    pyMod1_add_one ((2 + (b - r) / (g - b)) / 6 - 1/3) (by linarith) (by linarith),
    vRaw_seg3 b g ((2 + (b - r) / (g - b)) / 6 + 1/3) (by linarith) (by linarith),
    vRaw_seg2 b g ((2 + (b - r) / (g - b)) / 6) (by linarith) (by linarith),
    vRaw_seg4 b g ((2 + (b - r) / (g - b)) / 6 - 1/3 + 1) (by linarith)]
  simp only [Prod.mk.injEq]
  field_simp
  ring

theorem hlsRound_case_B2 (r g b : ℚ) (hb0 : 0 ≤ b) (hg1 : g ≤ 1) (hbr : b = r)
    (hrg : r < g) : hlsRound r g b = (r, g, b) := by
  subst hbr
  have hbg : b < g := hrg
  have hmax : maxc b g b = g := by
    unfold maxc; rw [max_eq_left (le_of_lt hbg)]; exact max_eq_right (le_of_lt hrg)
  have hmin : minc b g b = b := by
    unfold minc; rw [min_eq_right (le_of_lt hbg)]; exact min_self b
  have hΔ : 0 < g - b := by linarith
  have hne : minc b g b ≠ maxc b g b := by rw [hmin, hmax]; exact ne_of_lt (by linarith)
  have hu : hueRaw b g b = 2 := by
    unfold hueRaw
    rw [hmax, hmin, if_neg (ne_of_lt hrg), if_pos rfl]
    field_simp
  have hmod : pyMod1 (hueRaw b g b / 6) = 2 / 6 := by
    rw [hu]; exact pyMod1_self _ (by norm_num) (by norm_num)
  unfold hlsRound
  rw [show colorsys_rgb_to_hls b g b =
    (pyMod1 (hueRaw b g b / 6), hlsL b g b,
      if hlsL b g b ≤ 1/2 then (maxc b g b - minc b g b) / (maxc b g b + minc b g b)
      else (maxc b g b - minc b g b) / (2 - maxc b g b - minc b g b)) by
      unfold colorsys_rgb_to_hls; rw [if_neg hne]]
  dsimp only
  unfold hlsL
  rw [hmod, hmax, hmin]
  have hS := hls_s_pos b g hb0 (by linarith) hg1
  have hM2 := hlsM2_max b g hb0 (by linarith) hg1
  unfold colorsys_hls_to_rgb
  rw [if_neg (ne_of_gt hS), hM2, show (2 : ℚ) * ((b + g) / 2) - g = b from by ring]
  unfold colorsys_v
  rw [pyMod1_self ((2:ℚ) / 6 + 1/3) (by norm_num) (by norm_num),
    pyMod1_self ((2:ℚ) / 6) (by norm_num) (by norm_num),
    pyMod1_self ((2:ℚ) / 6 - 1/3) (by norm_num) (by norm_num),
    vRaw_seg4 b g ((2:ℚ) / 6 + 1/3) (by norm_num),
    vRaw_seg2 b g ((2:ℚ) / 6) (by norm_num) (by norm_num),
    vRaw_seg1 b g ((2:ℚ) / 6 - 1/3) (by norm_num)]
  simp only [Prod.mk.injEq]
  refine ⟨trivial, trivial, by ring⟩

theorem hlsRound_case_B3 (r g b : ℚ) (hr0 : 0 ≤ r) (hg1 : g ≤ 1) (hrb : r < b)
    (hbg : b < g) : hlsRound r g b = (r, g, b) := by
  have hrg : r < g := lt_trans hrb hbg
  have hmax : maxc r g b = g := by
    unfold maxc; rw [max_eq_left (le_of_lt hbg)]; exact max_eq_right (le_of_lt hrg)
  have hmin : minc r g b = r := by
    unfold minc; rw [min_eq_right (le_of_lt hbg)]; exact min_eq_left (le_of_lt hrb)
  have hΔ : 0 < g - r := by linarith
  have hne : minc r g b ≠ maxc r g b := by rw [hmin, hmax]; exact ne_of_lt (by linarith)
  have hu : hueRaw r g b = 2 + (b - r) / (g - r) := by
    unfold hueRaw
    rw [hmax, hmin, if_neg (ne_of_lt hrg), if_pos rfl]
    field_simp
    ring
  have hulo : (0 : ℚ) < (b - r) / (g - r) := div_pos (by linarith) hΔ
  have huhi : (b - r) / (g - r) < 1 := (div_lt_one hΔ).2 (by linarith)
  have hmod : pyMod1 (hueRaw r g b / 6) = (2 + (b - r) / (g - r)) / 6 := by
    rw [hu]; exact pyMod1_self _ (by linarith) (by linarith)
  unfold hlsRound
  rw [show colorsys_rgb_to_hls r g b =
    (pyMod1 (hueRaw r g b / 6), hlsL r g b,
      if hlsL r g b ≤ 1/2 then (maxc r g b - minc r g b) / (maxc r g b + minc r g b)
      else (maxc r g b - minc r g b) / (2 - maxc r g b - minc r g b)) by
      unfold colorsys_rgb_to_hls; rw [if_neg hne]]
  dsimp only
  unfold hlsL
  rw [hmod, hmax, hmin]
  have hS := hls_s_pos r g hr0 (by linarith) hg1
  have hM2 := hlsM2_max r g hr0 (by linarith) hg1
  unfold colorsys_hls_to_rgb
  rw [if_neg (ne_of_gt hS), hM2, show (2 : ℚ) * ((r + g) / 2) - g = r from by ring]
  unfold colorsys_v
  rw [pyMod1_self ((2 + (b - r) / (g - r)) / 6 + 1/3) (by linarith) (by linarith),
    pyMod1_self ((2 + (b - r) / (g - r)) / 6) (by linarith) (by linarith),
    pyMod1_self ((2 + (b - r) / (g - r)) / 6 - 1/3) (by linarith) (by linarith),
    vRaw_seg4 r g ((2 + (b - r) / (g - r)) / 6 + 1/3) (by linarith),
    vRaw_seg2 r g ((2 + (b - r) / (g - r)) / 6) (by linarith) (by linarith),
    vRaw_seg1 r g ((2 + (b - r) / (g - r)) / 6 - 1/3) (by linarith)]
  simp only [Prod.mk.injEq]
  refine ⟨trivial, trivial, ?_⟩
  field_simp
  ring

theorem hlsRound_case_B4 (r g b : ℚ) (hr0 : 0 ≤ r) (hg1 : g ≤ 1) (hrb : r < b)
    (hbg : b = g) : hlsRound r g b = (r, g, b) := by
  subst hbg
  have hrg : r < b := hrb
  have hmax : maxc r b b = b := by
    unfold maxc; rw [max_self]; exact max_eq_right (le_of_lt hrg)
  have hmin : minc r b b = r := by
    unfold minc; rw [min_self]; exact min_eq_left (le_of_lt hrb)
  have hΔ : 0 < b - r := by linarith
  have hne : minc r b b ≠ maxc r b b := by rw [hmin, hmax]; exact ne_of_lt (by linarith)
  have hu : hueRaw r b b = 3 := by
    unfold hueRaw
    rw [hmax, hmin, if_neg (ne_of_lt hrg), if_pos rfl]
    field_simp
    ring
  have hmod : pyMod1 (hueRaw r b b / 6) = 3 / 6 := by
    rw [hu]; exact pyMod1_self _ (by norm_num) (by norm_num)
  unfold hlsRound
  rw [show colorsys_rgb_to_hls r b b =
    (pyMod1 (hueRaw r b b / 6), hlsL r b b,
      if hlsL r b b ≤ 1/2 then (maxc r b b - minc r b b) / (maxc r b b + minc r b b)
      else (maxc r b b - minc r b b) / (2 - maxc r b b - minc r b b)) by
      unfold colorsys_rgb_to_hls; rw [if_neg hne]]
  dsimp only
  unfold hlsL
  rw [hmod, hmax, hmin]
  have hS := hls_s_pos r b hr0 (by linarith) hg1
  have hM2 := hlsM2_max r b hr0 (by linarith) hg1
  unfold colorsys_hls_to_rgb
  rw [if_neg (ne_of_gt hS), hM2, show (2 : ℚ) * ((r + b) / 2) - b = r from by ring]
  unfold colorsys_v
  rw [pyMod1_self ((3:ℚ) / 6 + 1/3) (by norm_num) (by norm_num),
    pyMod1_self ((3:ℚ) / 6) (by norm_num) (by norm_num),
    pyMod1_self ((3:ℚ) / 6 - 1/3) (by norm_num) (by norm_num),
    vRaw_seg4 r b ((3:ℚ) / 6 + 1/3) (by norm_num),
    vRaw_seg3 r b ((3:ℚ) / 6) (by norm_num) (by norm_num),
    vRaw_seg2 r b ((3:ℚ) / 6 - 1/3) (by norm_num) (by norm_num)]
  simp only [Prod.mk.injEq]
  refine ⟨trivial, by ring, trivial⟩

theorem hlsRound_case_C1 (r g b : ℚ) (hr0 : 0 ≤ r) (hb1 : b ≤ 1) (hrg : r < g)
    (hgb : g < b) : hlsRound r g b = (r, g, b) := by
  have hrb : r < b := lt_trans hrg hgb
  have hmax : maxc r g b = b := by
    unfold maxc; rw [max_eq_right (le_of_lt hgb)]; exact max_eq_right (le_of_lt hrb)
  have hmin : minc r g b = r := by
    unfold minc; rw [min_eq_left (le_of_lt hgb)]; exact min_eq_left (le_of_lt hrg)
  have hΔ : 0 < b - r := by linarith
  have hne : minc r g b ≠ maxc r g b := by rw [hmin, hmax]; exact ne_of_lt (by linarith)
  have hu : hueRaw r g b = 4 + (r - g) / (b - r) := by
    unfold hueRaw
    rw [hmax, hmin, if_neg (ne_of_lt hrb), if_neg (ne_of_lt hgb)]
    field_simp
    ring
  have hulo : (-1 : ℚ) < (r - g) / (b - r) := (lt_div_iff₀ hΔ).2 (by linarith)
  have huhi : (r - g) / (b - r) < 0 := div_neg_of_neg_of_pos (by linarith) hΔ
  have hmod : pyMod1 (hueRaw r g b / 6) = (4 + (r - g) / (b - r)) / 6 := by
    rw [hu]; exact pyMod1_self _ (by linarith) (by linarith)
  unfold hlsRound
  rw [show colorsys_rgb_to_hls r g b =
    (pyMod1 (hueRaw r g b / 6), hlsL r g b,
      if hlsL r g b ≤ 1/2 then (maxc r g b - minc r g b) / (maxc r g b + minc r g b)
      else (maxc r g b - minc r g b) / (2 - maxc r g b - minc r g b)) by
      unfold colorsys_rgb_to_hls; rw [if_neg hne]]
  dsimp only
  unfold hlsL
  rw [hmod, hmax, hmin]
  have hS := hls_s_pos r b hr0 (by linarith) hb1
  have hM2 := hlsM2_max r b hr0 (by linarith) hb1
  unfold colorsys_hls_to_rgb
  rw [if_neg (ne_of_gt hS), hM2, show (2 : ℚ) * ((r + b) / 2) - b = r from by ring]
  unfold colorsys_v
  rw [pyMod1_self ((4 + (r - g) / (b - r)) / 6 + 1/3) (by linarith) (by linarith),
    pyMod1_self ((4 + (r - g) / (b - r)) / 6) (by linarith) (by linarith),
    pyMod1_self ((4 + (r - g) / (b - r)) / 6 - 1/3) (by linarith) (by linarith),
    vRaw_seg4 r b ((4 + (r - g) / (b - r)) / 6 + 1/3) (by linarith),
    vRaw_seg3 r b ((4 + (r - g) / (b - r)) / 6) (by linarith) (by linarith),
    vRaw_seg2 r b ((4 + (r - g) / (b - r)) / 6 - 1/3) (by linarith) (by linarith)]
  simp only [Prod.mk.injEq]
  refine ⟨trivial, ?_, trivial⟩
  field_simp
  ring

theorem hlsRound_case_C2 (r g b : ℚ) (hg0 : 0 ≤ g) (hb1 : b ≤ 1) (hrg : r = g)
    (hgb : g < b) : hlsRound r g b = (r, g, b) := by
  subst hrg
  have hrb : r < b := hgb
  have hmax : maxc r r b = b := by
    unfold maxc; rw [max_eq_right (le_of_lt hgb)]; exact max_eq_right (le_of_lt hrb)
  have hmin : minc r r b = r := by
    unfold minc; rw [min_eq_left (le_of_lt hgb)]; exact min_self r
  have hΔ : 0 < b - r := by linarith
  have hne : minc r r b ≠ maxc r r b := by rw [hmin, hmax]; exact ne_of_lt (by linarith)
  have hu : hueRaw r r b = 4 := by
    unfold hueRaw
    rw [hmax, hmin, if_neg (ne_of_lt hrb), if_neg (ne_of_lt hgb)]
    field_simp
  have hmod : pyMod1 (hueRaw r r b / 6) = 4 / 6 := by
    rw [hu]; exact pyMod1_self _ (by norm_num) (by norm_num)
  unfold hlsRound
  rw [show colorsys_rgb_to_hls r r b =
    (pyMod1 (hueRaw r r b / 6), hlsL r r b,
      if hlsL r r b ≤ 1/2 then (maxc r r b - minc r r b) / (maxc r r b + minc r r b)
      else (maxc r r b - minc r r b) / (2 - maxc r r b - minc r r b)) by
      unfold colorsys_rgb_to_hls; rw [if_neg hne]]
  dsimp only
  unfold hlsL
  rw [hmod, hmax, hmin]
  have hS := hls_s_pos r b hg0 (by linarith) hb1
  have hM2 := hlsM2_max r b hg0 (by linarith) hb1
  unfold colorsys_hls_to_rgb
  rw [if_neg (ne_of_gt hS), hM2, show (2 : ℚ) * ((r + b) / 2) - b = r from by ring]
  unfold colorsys_v
  rw [pyMod1_sub_one ((4:ℚ) / 6 + 1/3) (by norm_num) (by norm_num),
    pyMod1_self ((4:ℚ) / 6) (by norm_num) (by norm_num),
    pyMod1_self ((4:ℚ) / 6 - 1/3) (by norm_num) (by norm_num),
    vRaw_seg1 r b ((4:ℚ) / 6 + 1/3 - 1) (by norm_num),
    vRaw_seg4 r b ((4:ℚ) / 6) (by norm_num),
    vRaw_seg2 r b ((4:ℚ) / 6 - 1/3) (by norm_num) (by norm_num)]
  simp only [Prod.mk.injEq]
  refine ⟨by ring, trivial⟩

theorem hlsRound_case_C3 (r g b : ℚ) (hg0 : 0 ≤ g) (hb1 : b ≤ 1) (hgr : g < r)
    (hrb : r < b) : hlsRound r g b = (r, g, b) := by
  have hgb : g < b := lt_trans hgr hrb
  have hmax : maxc r g b = b := by
    unfold maxc; rw [max_eq_right (le_of_lt hgb)]; exact max_eq_right (le_of_lt hrb)
  have hmin : minc r g b = g := by
    unfold minc; rw [min_eq_left (le_of_lt hgb)]; exact min_eq_right (le_of_lt hgr)
  have hΔ : 0 < b - g := by linarith
  have hne : minc r g b ≠ maxc r g b := by rw [hmin, hmax]; exact ne_of_lt (by linarith)
  have hu : hueRaw r g b = 4 + (r - g) / (b - g) := by
    unfold hueRaw
    rw [hmax, hmin, if_neg (ne_of_lt hrb), if_neg (ne_of_lt hgb)]
    field_simp
    ring
  have hulo : (0 : ℚ) < (r - g) / (b - g) := div_pos (by linarith) hΔ
  have huhi : (r - g) / (b - g) < 1 := (div_lt_one hΔ).2 (by linarith)
  have hmod : pyMod1 (hueRaw r g b / 6) = (4 + (r - g) / (b - g)) / 6 := by
    rw [hu]; exact pyMod1_self _ (by linarith) (by linarith)
  unfold hlsRound
  rw [show colorsys_rgb_to_hls r g b =
    (pyMod1 (hueRaw r g b / 6), hlsL r g b,
      if hlsL r g b ≤ 1/2 then (maxc r g b - minc r g b) / (maxc r g b + minc r g b)
      else (maxc r g b - minc r g b) / (2 - maxc r g b - minc r g b)) by
      unfold colorsys_rgb_to_hls; rw [if_neg hne]]
  dsimp only
  unfold hlsL
  rw [hmod, hmax, hmin]
  have hS := hls_s_pos g b hg0 (by linarith) hb1
  have hM2 := hlsM2_max g b hg0 (by linarith) hb1
  unfold colorsys_hls_to_rgb
  rw [if_neg (ne_of_gt hS), hM2, show (2 : ℚ) * ((g + b) / 2) - b = g from by ring]
  unfold colorsys_v
  rw [pyMod1_sub_one ((4 + (r - g) / (b - g)) / 6 + 1/3) (by linarith) (by linarith),
    pyMod1_self ((4 + (r - g) / (b - g)) / 6) (by linarith) (by linarith),
    pyMod1_self ((4 + (r - g) / (b - g)) / 6 - 1/3) (by linarith) (by linarith),
    vRaw_seg1 g b ((4 + (r - g) / (b - g)) / 6 + 1/3 - 1) (by linarith),
    vRaw_seg4 g b ((4 + (r - g) / (b - g)) / 6) (by linarith),
    vRaw_seg2 g b ((4 + (r - g) / (b - g)) / 6 - 1/3) (by linarith) (by linarith)]
  simp only [Prod.mk.injEq]
  field_simp
  ring

/-- The `colorsys` HLS round trip is exact on rational channels in `[0, 1]`. -/
theorem hlsRound_exact (r g b : ℚ) (hr0 : 0 ≤ r) (hg0 : 0 ≤ g) (hb0 : 0 ≤ b)
    (hr1 : r ≤ 1) (hg1 : g ≤ 1) (hb1 : b ≤ 1) : hlsRound r g b = (r, g, b) := by
  refine rgb_case_split r g b _ ?_ ?_ ?_ ?_ ?_ ?_ ?_ ?_ ?_ ?_ ?_
  · exact hlsRound_case_eq r g b
  · exact hlsRound_case_A1 r g b hb0 hr1
  · exact hlsRound_case_A2 r g b hb0 hr1
  · exact hlsRound_case_A3 r g b hg0 hr1
  · exact hlsRound_case_B1 r g b hb0 hg1
  · exact hlsRound_case_B2 r g b hb0 hg1
  · exact hlsRound_case_B3 r g b hr0 hg1
  · exact hlsRound_case_B4 r g b hr0 hg1
  · exact hlsRound_case_C1 r g b hr0 hb1
  · exact hlsRound_case_C2 r g b hg0 hb1
  · exact hlsRound_case_C3 r g b hg0 hb1

theorem pyInt_div255_mul (n : ℕ) : pyInt ((n : ℚ) / 255 * 255) = n := by
  rw [show (n : ℚ) / 255 * 255 = (n : ℚ) from by field_simp]
  exact pyInt_natCast n

/-- The repo-level HSV round trip (through `/255`, `colorsys`, `*255` and
`int`) is exact on integer channels. -/
theorem hsv_repo_roundtrip (r g b : ℕ) :
    apply3 hsv_to_rgb (rgb_to_hsv (r : ℚ) (g : ℚ) (b : ℚ)) = [(r : ℚ), (g : ℚ), (b : ℚ)] := by
  have h := hsvRound_exact ((r : ℚ) / 255) ((g : ℚ) / 255) ((b : ℚ) / 255)
    (by positivity) (by positivity) (by positivity)
  unfold hsvRound at h
  show hsv_to_rgb (colorsys_rgb_to_hsv ((r : ℚ) / 255) ((g : ℚ) / 255) ((b : ℚ) / 255)).1
    (colorsys_rgb_to_hsv ((r : ℚ) / 255) ((g : ℚ) / 255) ((b : ℚ) / 255)).2.1
    (colorsys_rgb_to_hsv ((r : ℚ) / 255) ((g : ℚ) / 255) ((b : ℚ) / 255)).2.2 = _
  unfold hsv_to_rgb
  rw [h]
  dsimp only
  rw [pyInt_div255_mul r, pyInt_div255_mul g, pyInt_div255_mul b]
  push_cast
  rfl

/-- The repo-level HLS round trip is exact on integer channels in `[0, 255]`. -/
theorem hls_repo_roundtrip (r g b : ℕ) (hr : r ≤ 255) (hg : g ≤ 255) (hb : b ≤ 255) :
    apply3 hls_to_rgb (rgb_to_hls (r : ℚ) (g : ℚ) (b : ℚ)) = [(r : ℚ), (g : ℚ), (b : ℚ)] := by
  have hr1 : (r : ℚ) / 255 ≤ 1 := (div_le_one (by norm_num)).2 (by exact_mod_cast hr)
  have hg1 : (g : ℚ) / 255 ≤ 1 := (div_le_one (by norm_num)).2 (by exact_mod_cast hg)
  have hb1 : (b : ℚ) / 255 ≤ 1 := (div_le_one (by norm_num)).2 (by exact_mod_cast hb)
  have h := hlsRound_exact ((r : ℚ) / 255) ((g : ℚ) / 255) ((b : ℚ) / 255)
    (by positivity) (by positivity) (by positivity) hr1 hg1 hb1
  unfold hlsRound at h
  show hls_to_rgb (colorsys_rgb_to_hls ((r : ℚ) / 255) ((g : ℚ) / 255) ((b : ℚ) / 255)).1
    (colorsys_rgb_to_hls ((r : ℚ) / 255) ((g : ℚ) / 255) ((b : ℚ) / 255)).2.1
    (colorsys_rgb_to_hls ((r : ℚ) / 255) ((g : ℚ) / 255) ((b : ℚ) / 255)).2.2 = _
  unfold hls_to_rgb
  rw [h]
  dsimp only
  rw [pyInt_div255_mul r, pyInt_div255_mul g, pyInt_div255_mul b]
  push_cast
  rfl

/-- C5: for every integer RGB triplet with channels in [0, 255], converting to
the alternate space with `rgb_to_hsv` / `rgb_to_hls` and back with
`hsv_to_rgb` / `hls_to_rgb` reproduces each original channel within an
error of at most 1 (over exact rational arithmetic the round trip is in fact
exact). -/
theorem rgb_roundtrip_within_one (r g b : ℕ) (hr : r ≤ 255) (hg : g ≤ 255) (hb : b ≤ 255) :
    ((apply3 hsv_to_rgb (rgb_to_hsv (r : ℚ) (g : ℚ) (b : ℚ))).length = 3 ∧
     |(apply3 hsv_to_rgb (rgb_to_hsv (r : ℚ) (g : ℚ) (b : ℚ))).getD 0 0 - (r : ℚ)| ≤ 1 ∧
     |(apply3 hsv_to_rgb (rgb_to_hsv (r : ℚ) (g : ℚ) (b : ℚ))).getD 1 0 - (g : ℚ)| ≤ 1 ∧
     |(apply3 hsv_to_rgb (rgb_to_hsv (r : ℚ) (g : ℚ) (b : ℚ))).getD 2 0 - (b : ℚ)| ≤ 1) ∧
    ((apply3 hls_to_rgb (rgb_to_hls (r : ℚ) (g : ℚ) (b : ℚ))).length = 3 ∧
     |(apply3 hls_to_rgb (rgb_to_hls (r : ℚ) (g : ℚ) (b : ℚ))).getD 0 0 - (r : ℚ)| ≤ 1 ∧
     |(apply3 hls_to_rgb (rgb_to_hls (r : ℚ) (g : ℚ) (b : ℚ))).getD 1 0 - (g : ℚ)| ≤ 1 ∧
     |(apply3 hls_to_rgb (rgb_to_hls (r : ℚ) (g : ℚ) (b : ℚ))).getD 2 0 - (b : ℚ)| ≤ 1) := by
  rw [hsv_repo_roundtrip r g b, hls_repo_roundtrip r g b hr hg hb]
  norm_num

/-- Witness for C5 at the concrete triplet (3, 200, 255). -/
theorem rgb_roundtrip_within_one_witness :
    ((apply3 hsv_to_rgb (rgb_to_hsv ((3 : ℕ) : ℚ) ((200 : ℕ) : ℚ) ((255 : ℕ) : ℚ))).length = 3 ∧
     |(apply3 hsv_to_rgb (rgb_to_hsv ((3 : ℕ) : ℚ) ((200 : ℕ) : ℚ) ((255 : ℕ) : ℚ))).getD 0 0 -
       ((3 : ℕ) : ℚ)| ≤ 1 ∧
     |(apply3 hsv_to_rgb (rgb_to_hsv ((3 : ℕ) : ℚ) ((200 : ℕ) : ℚ) ((255 : ℕ) : ℚ))).getD 1 0 -
       ((200 : ℕ) : ℚ)| ≤ 1 ∧
     |(apply3 hsv_to_rgb (rgb_to_hsv ((3 : ℕ) : ℚ) ((200 : ℕ) : ℚ) ((255 : ℕ) : ℚ))).getD 2 0 -
       ((255 : ℕ) : ℚ)| ≤ 1) ∧
    ((apply3 hls_to_rgb (rgb_to_hls ((3 : ℕ) : ℚ) ((200 : ℕ) : ℚ) ((255 : ℕ) : ℚ))).length = 3 ∧
     |(apply3 hls_to_rgb (rgb_to_hls ((3 : ℕ) : ℚ) ((200 : ℕ) : ℚ) ((255 : ℕ) : ℚ))).getD 0 0 -
       ((3 : ℕ) : ℚ)| ≤ 1 ∧
     |(apply3 hls_to_rgb (rgb_to_hls ((3 : ℕ) : ℚ) ((200 : ℕ) : ℚ) ((255 : ℕ) : ℚ))).getD 1 0 -
       ((200 : ℕ) : ℚ)| ≤ 1 ∧
     |(apply3 hls_to_rgb (rgb_to_hls ((3 : ℕ) : ℚ) ((200 : ℕ) : ℚ) ((255 : ℕ) : ℚ))).getD 2 0 -
       ((255 : ℕ) : ℚ)| ≤ 1) :=
  rgb_roundtrip_within_one 3 200 255 (by decide) (by decide) (by decide)

section ConcreteEvaluations

attribute [local semireducible] Rat.mul Rat.add Rat.inv Rat.sub

/-- C2: the claim says memoization never changes the result of
`get_closest_color` — two input colors share a cached result only if they are
identical.  The code violates this: `get_hex` concatenates UNPADDED hex
digits, so the distinct colors (17,1,1) and (1,17,1) share the key "1111";
after a first call on (17,1,1) populated the memo (same palette, same mode),
the call on (1,17,1) returns the cached entry [17,1,1], while a memo-free
scan of the same palette returns [1,17,1]. -/
theorem get_closest_color_memo_collision :
    (get_closest_color [(17:ℚ),1,1] [[(17:ℚ),1,1],[(1:ℚ),17,1]] [] Mode.rgb).map Prod.fst =
      some [(17:ℚ),1,1] ∧
    (get_closest_color [(1:ℚ),17,1] [[(17:ℚ),1,1],[(1:ℚ),17,1]]
      ((get_closest_color [(17:ℚ),1,1] [[(17:ℚ),1,1],[(1:ℚ),17,1]] [] Mode.rgb).getD
        ([], [])).2 Mode.rgb).map Prod.fst = some [(17:ℚ),1,1] ∧
    (get_closest_color [(1:ℚ),17,1] [[(17:ℚ),1,1],[(1:ℚ),17,1]] [] Mode.rgb).map Prod.fst =
      some [(1:ℚ),17,1] ∧
    get_hex [(17:ℚ),1,1] Mode.rgb = get_hex [(1:ℚ),17,1] Mode.rgb ∧
    [(17:ℚ),1,1] ≠ [(1:ℚ),17,1] := by
  refine ⟨by decide, by decide, by decide, by decide, by decide⟩

/-- C3: the claim says the color average of a block is the unweighted mean of
each channel over the block's pixels also in HSV/HLS mode.  The code's
`average_pixel` instead divides each channel sum by
`map_size = len(list(zip(*data))[:3]) = 3` (the channel count): for two
identical pixels (1/2, 1/2, 1/2) the mean of each channel is 1/2, but the
code returns 1/3 per channel. -/
theorem average_pixel_hsv_divides_by_three :
    average_pixel [[(1:ℚ)/2, 1/2, 1/2], [(1:ℚ)/2, 1/2, 1/2]] Mode.hsv =
      [(1:ℚ)/3, 1/3, 1/3] ∧
    ((1:ℚ)/3 ≠ 1/2) := by
  refine ⟨by decide, by decide⟩

/-- C7: the claim says `phixelate` with blockSize 1 and no palette leaves
every pixel unchanged (average of a single value).  In `hsv` mode the code
changes pixels, because `average_pixel` divides the single pixel's channel
values by 3: a 1×1 buffer holding (255,255,255,255) is rewritten to
(85,85,85,255). -/
theorem phixelate_blocksize_one_hsv_changes_pixel :
    phixelate 1 1 (fun _ _ => [255, 255, 255, 255]) [] 1 Mode.hsv 0 0 =
      [(85:ℚ), 85, 85, 255] ∧
    ([(85:ℚ), 85, 85, 255] ≠ [(255:ℚ), 255, 255, 255]) := by
  refine ⟨by decide, by decide⟩

/-- C10: the claim says every RGBA tuple written back by `phixelate` has all
channels in [0, 255] when the input buffer does.  In `hsv` mode with no
palette the divide-by-3 averaging makes `v` exceed 1 (here `v = 3` for a 3×3
all-white block), and `hsv_to_rgb` then writes channel value 765. -/
theorem phixelate_writes_out_of_range_channel :
    phixelate 3 3 (fun _ _ => [255, 255, 255, 255]) [] 3 Mode.hsv 0 0 =
      [(765:ℚ), 765, 765, 255] ∧
    ¬ ((765:ℚ) ≤ 255) := by
  refine ⟨by decide, by decide⟩

/-- C8 counterexample: the claim says a palette-load failure is never fatal.
For a custom palette whose contents are malformed JSON, `json.loads` raises
outside any `try` block and the run aborts instead of degrading to the
no-palette outcome with a warning. -/
theorem loadPalette_custom_malformed_fatal :
    loadPalette Mode.rgb (some (Except.error ())) none = Except.error () ∧
    (Except.error () : Except Unit PaletteOutcome) ≠ Except.ok ⟨[], true⟩ := by
  refine ⟨rfl, fun h => Except.noConfusion h⟩

/-- C8 amended: a named built-in palette that fails to load degrades to the
no-palette mode with a reported warning, but a custom palette file with
malformed JSON raises an uncaught exception and aborts the run (in any color
mode and regardless of any named palette selection). -/
theorem loadPalette_builtin_degrades_custom_aborts (mode : Mode)
    (b : Option (Except Unit (List (List ℚ)))) :
    loadPalette mode none (some (Except.error ())) = Except.ok ⟨[], true⟩ ∧
    loadPalette mode (some (Except.error ())) b = Except.error () :=
  ⟨rfl, rfl⟩

/-- C9: the claim says `generate_palette` yields exactly the distinct color
triplets of the image.  The code instead raises `TypeError` on any image with
at least one color: `map` calls the two-parameter `transform` lambda with a
single `(count, color)` tuple.  Evaluated here at the claim's own 2×2 image
with colors {(1,2,3)×2, (4,5,6), (7,8,9)}. -/
theorem generate_palette_raises_typeerror :
    generate_palette [(2, ((1:ℚ), 2, 3)), (1, ((4:ℚ), 5, 6)), (1, ((7:ℚ), 8, 9))]
      Mode.rgb = Except.error () := rfl

end ConcreteEvaluations

end Phix
